import Mathlib

/-!
# BMI-IMC: a verification development of `bmi.cpp`

The program reads a height and a weight, computes the Oxford-2013 body mass
index, classifies it and reports an ideal weight range.

## Modelling conventions

* A value of the C++ type `float` is a `FloatVal α`: NaN, minus infinity, plus
  infinity, or a finite value `fin x` with `x` in a linearly ordered field `α`
  (`ℚ` holds every finite binary32 value exactly; `ℝ` is used where `pow`
  produces irrational values).  The sign of zero is not tracked.
* Comparisons follow IEEE 754: every ordered comparison with NaN is false.
* Arithmetic on finite values has two readings.  In `getBMI`, `getIdealWeight`
  and `bmiFormula` it is exact arithmetic of `α`: decimal literals denote their
  decimal value and the binary32 rounding of `*`, `/` and `pow` is left out;
  this reading serves the properties that hold with a margin far above the
  rounding error.  In `getBMI32`, `getIdealWeight32` and `bmiFormula32` every
  literal and every operation is rounded to binary32 (`round32`); this reading
  serves the properties that the last bit decides.  In both, division of a
  finite value by zero gives an infinity or NaN as IEEE 754 prescribes.
* `unsigned short` values are natural numbers; the reader keeps them
  below `65536`.
-/

namespace BMI

/-! ## Values of type `float` -/

/-- A value of the C++ type `float`, over the field `α` of finite values. -/
inductive FloatVal (α : Type) where
  | nan : FloatVal α
  | negInf : FloatVal α
  | posInf : FloatVal α
  | fin (x : α) : FloatVal α
  deriving DecidableEq

namespace FloatVal

variable {α : Type} [LinearOrderedField α]

/-- IEEE 754 `a < b`: false as soon as one side is NaN. -/
def lt : FloatVal α → FloatVal α → Bool
  | nan, _ => false
  | _, nan => false
  | negInf, negInf => false
  | negInf, _ => true
  | _, negInf => false
  | posInf, _ => false
  | fin _, posInf => true
  | fin x, fin y => decide (x < y)

/-- IEEE 754 `a <= b`: false as soon as one side is NaN. -/
def le : FloatVal α → FloatVal α → Bool
  | nan, _ => false
  | _, nan => false
  | negInf, _ => true
  | _, posInf => true
  | posInf, _ => false
  | fin _, negInf => false
  | fin x, fin y => decide (x ≤ y)

/-- IEEE 754 `a > b`, which is `b < a`. -/
def gt (a b : FloatVal α) : Bool := lt b a

/-- IEEE 754 `a >= b`, which is `b <= a`. -/
def ge (a b : FloatVal α) : Bool := le b a

/-- IEEE 754 division `x / y` of two finite values; a zero divisor is `+0`. -/
def divFin (x y : α) : FloatVal α :=
  if y = 0 then
    if x = 0 then nan else if 0 < x then posInf else negInf
  else fin (x / y)

end FloatVal

open FloatVal

/-! ## The classifier -/

section Classifier

variable {α : Type} [LinearOrderedField α]

/-- The function `getSituation` of `bmi.cpp`: an if/else-if chain over the
thresholds 16, 17, 18.5, 25, 30, 35, 40 and 45 with a final catch-all `else`. -/
def getSituation (BMI : FloatVal α) : String :=
  if lt BMI (fin 16.0) then
    "Severe thinness (severe anorexia)"
  else if ge BMI (fin 16.0) && lt BMI (fin 17.0) then
    "Insufficient weight (moderate anorexia)"
  else if ge BMI (fin 17.0) && lt BMI (fin 18.5) then
    "Slight underweight"
  else if ge BMI (fin 18.5) && lt BMI (fin 25.0) then
    "Ideal weight (normal)"
  else if ge BMI (fin 25.0) && lt BMI (fin 30.0) then
    "Overweight"
  else if ge BMI (fin 30.0) && lt BMI (fin 35.0) then
    "Obesity type I"
  else if ge BMI (fin 35.0) && lt BMI (fin 40.0) then
    "Obesity type II"
  else if ge BMI (fin 40.0) && le BMI (fin 45.0) then
    "Obesity type III"
  else
    "Hypermorbid Obesity type IV"

end Classifier

/-! ## The BMI formula and its inverse -/

/-- The constant `IDEAL_WEIGHT_MIN_BMI` of `bmi.cpp`. -/
noncomputable def IDEAL_WEIGHT_MIN_BMI : ℝ := 18.5

/-- The constant `IDEAL_WEIGHT_MAX_BMI` of `bmi.cpp`. -/
noncomputable def IDEAL_WEIGHT_MAX_BMI : ℝ := 24.9

/-- The expression `1.3f * weight / pow(height / 100, 2.5f)` of `getBMI`, on a
weight that is already a finite `float`.  The product and the power are finite;
the power is zero exactly when the height is, so only the last division can
leave the finite values. -/
noncomputable def bmiFormula (height : ℕ) (weight : ℝ) : FloatVal ℝ :=
  divFin (1.3 * weight) (((height : ℝ) / 100) ^ (2.5 : ℝ))

/-- The function `getBMI` of `bmi.cpp`: both arguments are converted to `float`
and put in the formula. -/
noncomputable def getBMI (height weight : ℕ) : FloatVal ℝ :=
  bmiFormula height (weight : ℝ)

/-- The function `getIdealWeight` of `bmi.cpp`: the pair `(minWeight, maxWeight)`
with `w = targetBMI * pow(height / 100, 2.5f) / 1.3f`. -/
noncomputable def getIdealWeight (height : ℕ) : FloatVal ℝ × FloatVal ℝ :=
  let minWeight := divFin (IDEAL_WEIGHT_MIN_BMI * ((height : ℝ) / 100) ^ (2.5 : ℝ)) 1.3
  let maxWeight := divFin (IDEAL_WEIGHT_MAX_BMI * ((height : ℝ) / 100) ^ (2.5 : ℝ)) 1.3
  (minWeight, maxWeight)

/-! ## Standard input and output

`std::cin` is a finite list of unread characters with the state bits `eofbit`
and `failbit` (`badbit` is never set on a character list).  The library calls
of the readers follow the C++ standard for the classic locale:

* every input function first builds a sentry; on a stream that is not `good()`
  it sets `failbit` and extracts nothing;
* `cin >> x` skips leading white space (line ends included), then reads an
  optional sign and the longest run of decimal digits;
* `cin.ignore(max, '\n')` discards characters up to and including the next
  line end, or up to the end of input, where it sets `eofbit`.
-/

/-- The state of `std::cin`. -/
structure Cin where
  buf : List Char
  eofbit : Bool
  failbit : Bool
  deriving DecidableEq

/-- The `isspace` of the classic locale. -/
def isSpace (c : Char) : Bool :=
  c = ' ' || c = '\t' || c = '\n' || c = Char.ofNat 11 || c = Char.ofNat 12 || c = '\r'

/-- A decimal digit. -/
def isDigit (c : Char) : Bool := '0' ≤ c && c ≤ '9'

/-- The value of a run of decimal digits. -/
def digitsVal (ds : List Char) : ℕ :=
  ds.foldl (fun n c => 10 * n + (c.toNat - '0'.toNat)) 0

/-- The characters after the first line end, if there is one. -/
def dropLine : List Char → Option (List Char)
  | [] => none
  | c :: cs => if c = '\n' then some cs else dropLine cs

namespace Cin

/-- The call `cin.good()`. -/
def good (s : Cin) : Bool := !s.eofbit && !s.failbit

/-- The call `cin.fail()`. -/
def fail (s : Cin) : Bool := s.failbit

/-- The call `cin.clear()`. -/
def clear (s : Cin) : Cin := { s with eofbit := false, failbit := false }

/-- The call `cin.ignore(numeric_limits<streamsize>::max(), '\n')`. -/
def ignore (s : Cin) : Cin :=
  if s.good then
    match dropLine s.buf with
    | some rest => { s with buf := rest }
    | none => { s with buf := [], eofbit := true }
  else { s with failbit := true }

/-- The statement `cin >> x` for an `unsigned short x`: the stream afterwards
and the value of `x`.  A field without digits stores 0 and a field above 65535
stores 65535, both with `failbit`; a minus sign negates modulo 65536, as
libstdc++, libc++ and the Microsoft library do.  When the sentry fails `x` is
not written; the readers never look at it then, and the model reports 0. -/
def extract (s : Cin) : Cin × ℕ :=
  if s.good then
    match s.buf.dropWhile isSpace with
    | [] => ({ buf := [], eofbit := true, failbit := true }, 0)
    | c :: cs =>
      let body := if c = '-' || c = '+' then cs else c :: cs
      let ds := body.takeWhile isDigit
      let rest := body.dropWhile isDigit
      let n := digitsVal ds
      if ds.isEmpty then
        ({ buf := rest, eofbit := rest.isEmpty, failbit := true }, 0)
      else if 65535 < n then
        ({ buf := rest, eofbit := rest.isEmpty, failbit := true }, 65535)
      else
        ({ buf := rest, eofbit := rest.isEmpty, failbit := false },
          if c = '-' then (65536 - n) % 65536 else n)
  else ({ s with failbit := true }, 0)

end Cin

/-- The function `ignoreLine` of `bmi.cpp`. -/
def ignoreLine (s : Cin) : Cin := s.ignore

/-- The console: `std::cin` and what was written to `std::cout`, in order. -/
structure World where
  cin : Cin
  cout : List String
  deriving DecidableEq

/-- The statement `cout << text`. -/
def World.print (w : World) (text : String) : World :=
  { w with cout := w.cout ++ [text] }

/-- The prompt of `getHeight`. -/
def heightPrompt : String := "Your height (centimeters): "

/-- The prompt of `getWeight`. -/
def weightPrompt : String := "Your weight (kilograms): "

/-- The message printed after a failed extraction. -/
def retryMessage : String := "Oops, that input is invalid.  Please try again.\n"

/-- The function `getHeight` of `bmi.cpp`.  Each unit of fuel pays for one turn
of the `while (true)` loop; `none` means the fuel ran out before a `return`. -/
def getHeight : ℕ → World → Option (ℕ × World)
  | 0, _ => none
  | fuel + 1, w =>
    let w1 := w.print heightPrompt
    let (c, x) := w1.cin.extract
    if c.fail then
      let c1 := c.clear
      let c2 := ignoreLine c1
      getHeight fuel ({ w1 with cin := c2 }.print retryMessage)
    else
      let c1 := ignoreLine c
      some (x, { w1 with cin := c1 })

/-- The function `getWeight` of `bmi.cpp`, with the same fuel as `getHeight`. -/
def getWeight : ℕ → World → Option (ℕ × World)
  | 0, _ => none
  | fuel + 1, w =>
    let w1 := w.print weightPrompt
    let (c, x) := w1.cin.extract
    if c.fail then
      let c1 := c.clear
      let c2 := ignoreLine c1
      getWeight fuel ({ w1 with cin := c2 }.print retryMessage)
    else
      let c1 := ignoreLine c
      some (x, { w1 with cin := c1 })

/-- The console at program start, with `text` waiting on standard input. -/
def World.start (text : String) : World :=
  { cin := { buf := text.toList, eofbit := false, failbit := false }, cout := [] }

/-! ## Shapes of input text -/

/-- A line whose first token cannot start a number: after leading white space
there is a character that is not a digit, and if it is a sign then no digit
follows it. -/
def startsNonNumeric (line : List Char) : Bool :=
  match line.dropWhile isSpace with
  | [] => false
  | c :: t =>
    !isDigit c &&
      !((c = '-' || c = '+') && (match t with | d :: _ => isDigit d | [] => false))

/-- The text of a field after its optional sign: `c` is the first character
after the white space and `t` what follows it. -/
def signBody (c : Char) (t : List Char) : List Char :=
  if c = '-' || c = '+' then t else c :: t

/-- A line whose first token is a run of digits, with or without a sign, of
value above 65535. -/
def startsOutOfRange (line : List Char) : Bool :=
  match line.dropWhile isSpace with
  | [] => false
  | c :: t =>
    !((signBody c t).takeWhile isDigit).isEmpty &&
      decide (65535 < digitsVal ((signBody c t).takeWhile isDigit))

/-- A line whose first token the extraction rejects: it does not start a
number, or the number is out of range. -/
def startsRejected (line : List Char) : Bool :=
  startsNonNumeric line || startsOutOfRange line

/-- The input text made of the given lines, each closed by a line end, followed
by the characters `last`. -/
def linesThen : List (List Char) → List Char → List Char
  | [], last => last
  | line :: lines, last => line ++ '\n' :: linesThen lines last

/-- The output of `k` failed turns of `getHeight` and one more prompt. -/
def retryTranscript : ℕ → List String
  | 0 => [heightPrompt]
  | k + 1 => heightPrompt :: retryMessage :: retryTranscript k


/-! ## The reader of the specification -/

/-- The reader of the contract `readPositiveInteger(prompt)`, in the words of its
description: display the prompt and read one token; if it cannot be parsed,
discard the rest of the line, emit the error message and prompt again; on
success discard the rest of the line and return the integer.  Fuel counts the
prompts, as it does for `getHeight`. -/
def readPositiveInteger (prompt : String) : ℕ → World → Option (ℕ × World)
  | 0, _ => none
  | fuel + 1, w =>
    let prompted := w.print prompt
    let parsed := prompted.cin.extract
    if parsed.1.fail then
      let discarded := ignoreLine parsed.1.clear
      readPositiveInteger prompt fuel
        (World.print ⟨discarded, prompted.cout⟩ retryMessage)
    else
      some (parsed.2, ⟨ignoreLine parsed.1, prompted.cout⟩)

/-- The output text with the height prompt replaced by the weight prompt. -/
def asWeightPrompt (text : String) : String :=
  if text = heightPrompt then weightPrompt else text

/-- What a reader run shows to the outside: the value returned, the input left
unread and the output written. -/
def observe (r : Option (ℕ × World)) : Option (ℕ × Cin × List String) :=
  r.map fun p => (p.1, p.2.cin, p.2.cout)

/-- The observation of a run of `getHeight` with every height prompt replaced by
the weight prompt. -/
def observeAsWeight (r : Option (ℕ × World)) : Option (ℕ × Cin × List String) :=
  r.map fun p => (p.1, p.2.cin, p.2.cout.map asWeightPrompt)

/-! ## Binary32 arithmetic

The program computes in `float`.  Below, every operation of the formula is
rounded as IEEE 754 binary32 does: to 24 significant bits, to the nearest value,
ties to the even mantissa.  The exponent range is not modelled: with heights and
weights of type `unsigned short` every value lies between `1e-8` and `1e10`,
far from overflow and underflow.  The library function `pow` on two `float`
arguments is taken as correctly rounded. -/

/-- The integer nearest to `t`, ties to even. -/
noncomputable def roundEven (t : ℝ) : ℤ :=
  if t - ⌊t⌋ < 1 / 2 then ⌊t⌋
  else if 1 / 2 < t - ⌊t⌋ then ⌊t⌋ + 1
  else if Even ⌊t⌋ then ⌊t⌋ else ⌊t⌋ + 1

/-- The binary32 value nearest to `x`: with `2 ^ e <= |x| < 2 ^ (e + 1)` the
multiple of `2 ^ (e - 23)` nearest to `x`. -/
noncomputable def round32 (x : ℝ) : ℝ :=
  if x = 0 then 0
  else roundEven (x / 2 ^ (Int.log 2 |x| - 23)) * 2 ^ (Int.log 2 |x| - 23)

/-- The library function `pow` on `float` arguments. -/
noncomputable def powf (x y : ℝ) : ℝ := round32 (x ^ y)

/-- The binary32 division `x / y` of two finite values; a zero divisor is `+0`. -/
noncomputable def divFin32 (x y : ℝ) : FloatVal ℝ :=
  if y = 0 then
    if x = 0 then nan else if 0 < x then posInf else negInf
  else fin (round32 (x / y))

/-- The expression `1.3f * weight / pow(height / 100, 2.5f)` of `getBMI` in
binary32, on a weight that is a finite `float`; the conversion of an `unsigned
short` height to `float` is exact. -/
noncomputable def bmiFormula32 (height : ℕ) (weight : ℝ) : FloatVal ℝ :=
  divFin32 (round32 (round32 1.3 * weight)) (powf (round32 ((height : ℝ) / 100)) 2.5)

/-- The function `getBMI` of `bmi.cpp` in binary32. -/
noncomputable def getBMI32 (height weight : ℕ) : FloatVal ℝ :=
  bmiFormula32 height (weight : ℝ)

/-- The function `getIdealWeight` of `bmi.cpp` in binary32, with the constants
`18.5f`, `24.9f` and `1.3f`. -/
noncomputable def getIdealWeight32 (height : ℕ) : FloatVal ℝ × FloatVal ℝ :=
  let minWeight :=
    divFin32 (round32 (round32 18.5 * powf (round32 ((height : ℝ) / 100)) 2.5)) (round32 1.3)
  let maxWeight :=
    divFin32 (round32 (round32 24.9 * powf (round32 ((height : ℝ) / 100)) 2.5)) (round32 1.3)
  (minWeight, maxWeight)

/-! ## Exact evaluation of the binary32 formula

A positive binary32 value is written as a pair `(M, s)` of natural numbers: the
mantissa `M` and the scale `s` stand for `M / 2 ^ s`.  The functions below
compute the roundings of the formula on such pairs with natural numbers alone.
Each answer carries its own check (the exponent range and, for the square root,
the distance to the two neighbouring half-way points), so an answer that is
given is the value of `round32`; an answer that cannot be checked is `none`. -/

/-- The value `M / 2 ^ s` of the pair `(M, s)`. -/
noncomputable def scaled (f : ℕ × ℕ) : ℝ := (f.1 : ℝ) / 2 ^ f.2

/-- The function `k` at the number `n`.  The match has `n` computed once, before
`k` uses it. -/
def withNat {α : Type} (n : ℕ) (k : ℕ → α) : α :=
  match n with
  | 0 => k 0
  | m + 1 => k (m + 1)

/-- The quotient `N / d` rounded to the nearest integer, ties to even. -/
def roundDiv (N d : ℕ) : ℕ :=
  withNat (N / d) fun q =>
  withNat (2 * (N % d)) fun r =>
    bif Nat.blt r d then q
    else bif Nat.blt d r then q + 1
    else bif Nat.beq (q % 2) 0 then q else q + 1

/-- The binary32 value of `n / d` at the scale `s`, if `s` is the scale of `n / d`. -/
def flDivAt (n d s : ℕ) : Option (ℕ × ℕ) :=
  withNat (n * 2 ^ s) fun N =>
    bif Nat.ble (2 ^ 23 * d) N && Nat.blt N (2 ^ 24 * d) then
      withNat (roundDiv N d) fun M => some (M, s)
    else none

/-- The binary32 value of `n / d`, if its scale is `s0` or `s0 + 1`. -/
def flDivNear (n d s0 : ℕ) : Option (ℕ × ℕ) :=
  withNat n fun n1 =>
  withNat d fun d1 =>
  withNat s0 fun s =>
    bif Nat.ble (2 ^ 23 * d1) (n1 * 2 ^ s) then flDivAt n1 d1 s else flDivAt n1 d1 (s + 1)

/-- The binary32 product of two binary32 values. -/
def mulF32 (a b : ℕ × ℕ) : Option (ℕ × ℕ) :=
  flDivNear (a.1 * b.1) (2 ^ (a.2 + b.2)) (a.2 + b.2 - 24)

/-- The binary32 quotient of two binary32 values. -/
def divF32 (a b : ℕ × ℕ) : Option (ℕ × ℕ) :=
  flDivNear (a.1 * 2 ^ b.2) (b.1 * 2 ^ a.2) (23 + a.2 - b.2)

/-- The number of binary digits of `n`, for `n < 2 ^ 32`. -/
def bitLen (n : ℕ) : ℕ :=
  withNat (bif Nat.ble (2 ^ 16) n then 16 else 0) fun s4 =>
  withNat (n >>> s4) fun n4 =>
  withNat (bif Nat.ble (2 ^ 8) n4 then 8 else 0) fun s3 =>
  withNat (n4 >>> s3) fun n3 =>
  withNat (bif Nat.ble (2 ^ 4) n3 then 4 else 0) fun s2 =>
  withNat (n3 >>> s2) fun n2 =>
  withNat (bif Nat.ble (2 ^ 2) n2 then 2 else 0) fun s1 =>
  withNat (n2 >>> s1) fun n1 =>
    s4 + s3 + s2 + s1 + (bif Nat.ble 2 n1 then 2 else bif Nat.ble 1 n1 then 1 else 0)

/-- The conversion `static_cast<float>(n)` of an `unsigned short`. -/
def ofNat32 (n : ℕ) : Option (ℕ × ℕ) :=
  withNat (24 - bitLen n) fun s => flDivAt n 1 s

/-- The pair `(M, s)`, if `M / 2 ^ s` is the binary32 value of the square root of
`K / 2 ^ e`: the root has the scale `s` and lies strictly between the half-way
points `(2 * M - 1) / 2 ^ (s + 1)` and `(2 * M + 1) / 2 ^ (s + 1)`. -/
def flSqrtAt (K e M s : ℕ) : Option (ℕ × ℕ) :=
  bif Nat.ble 1 M && Nat.ble (2 ^ 46 * 2 ^ e) (K * 2 ^ (2 * s)) &&
      Nat.blt (K * 2 ^ (2 * s)) (2 ^ 48 * 2 ^ e) &&
      Nat.blt ((2 * M - 1) ^ 2 * 2 ^ e) (K * 2 ^ (2 * s + 2)) &&
      Nat.blt (K * 2 ^ (2 * s + 2)) ((2 * M + 1) ^ 2 * 2 ^ e) then
    some (M, s)
  else none

/-- Steps of the iteration `x ↦ (x + K / x) / 2` towards the square root of `K`. -/
def newton (K : ℕ) : ℕ → ℕ → ℕ
  | 0, x => x
  | k + 1, x => withNat ((x + K / x) / 2) fun y => newton K k y

/-- The binary32 value of the square root of `K / 2 ^ e`, for an even `e` and a
`K` of 116 to 121 binary digits; the iteration starts at `x0`. -/
def flSqrt (K e x0 : ℕ) : Option (ℕ × ℕ) :=
  withNat (newton K 6 x0) fun T =>
  withNat (34 + (bif Nat.ble (2 ^ 58) T then 1 else 0) + (bif Nat.ble (2 ^ 59) T then 1 else 0) +
      (bif Nat.ble (2 ^ 60) T then 1 else 0)) fun g =>
  withNat ((T + 2 ^ (g - 1)) >>> g) fun M =>
  withNat (e / 2 - g) fun s => flSqrtAt K e M s

/-- The value `powf x 2.5` of a binary32 value `x`: the square root of `x ^ 5`. -/
def powf52 (x : ℕ × ℕ) : Option (ℕ × ℕ) :=
  withNat (x.1 ^ 5) fun K =>
    bif Nat.beq (x.2 % 2) 0 then flSqrt K (5 * x.2) (x.1 ^ 2 * 2 ^ 12)
    else withNat (2 * K) fun K2 => flSqrt K2 (5 * x.2 + 1) (x.1 ^ 2 * 2 ^ 13)

/-- The power `pow(static_cast<float>(height) / 100, 2.5f)` in binary32; `100` is
`13107200 / 2 ^ 17`. -/
def powHeight32 (h : ℕ) : Option (ℕ × ℕ) :=
  (ofNat32 h).bind fun hf => (divF32 hf (13107200, 17)).bind powf52

/-- The weight `T * p / 1.3f` in binary32, for a target `T` and a power `p`;
`1.3f` is `10905190 / 2 ^ 23`. -/
def idealWeightAt (T p : ℕ × ℕ) : Option (ℕ × ℕ) :=
  (mulF32 T p).bind fun a => divF32 a (10905190, 23)

/-- The value `1.3f * static_cast<float>(weight) / p` in binary32, for a power `p`. -/
def bmiAt (p : ℕ × ℕ) (w : ℕ) : Option (ℕ × ℕ) :=
  (ofNat32 w).bind fun wf => (mulF32 (10905190, 23) wf).bind fun t => divF32 t p

/-- The function `getBMI` in binary32, on mantissa and scale. -/
def getBMI32Eval (h w : ℕ) : Option (ℕ × ℕ) :=
  (powHeight32 h).bind fun p => bmiAt p w

/-- The function `getIdealWeight` in binary32, on mantissa and scale; `18.5f` is
`9699328 / 2 ^ 19` and `24.9f` is `13054771 / 2 ^ 19`. -/
def getIdealWeight32Eval (h : ℕ) : Option ((ℕ × ℕ) × (ℕ × ℕ)) :=
  (powHeight32 h).bind fun p =>
  (idealWeightAt (9699328, 19) p).bind fun lo =>
  (idealWeightAt (13054771, 19) p).bind fun hi => some (lo, hi)

/-- The least natural number that is not below `M / 2 ^ s`. -/
def ceilScaled (f : ℕ × ℕ) : ℕ := (f.1 + 2 ^ f.2 - 1) / 2 ^ f.2

/-- The check of one height: the smallest integer weight that is not below the
minimum ideal weight has a BMI of at least 18.5, in binary32. -/
def rowCheck (h : ℕ) : Bool :=
  match powHeight32 h with
  | none => false
  | some p =>
    match idealWeightAt (9699328, 19) p with
    | none => false
    | some m =>
      match bmiAt p (ceilScaled m) with
      | none => false
      | some b => Nat.ble (37 * 2 ^ b.2) (2 * b.1)

/-- The check of all heights from 1 to `n`. -/
def checkUpTo : ℕ → Bool
  | 0 => true
  | n + 1 => rowCheck (n + 1) && checkUpTo n

/-! # Theorems -/

/-! ## The classifier -/

section ClassifierFacts

variable {α : Type} [LinearOrderedField α]

/-- The label of a finite value, as a chain over the upper bounds alone. -/
theorem getSituation_fin (x : α) :
    getSituation (fin x) =
      if x < 16 then "Severe thinness (severe anorexia)"
      else if x < 17 then "Insufficient weight (moderate anorexia)"
      else if x < 37 / 2 then "Slight underweight"
      else if x < 25 then "Ideal weight (normal)"
      else if x < 30 then "Overweight"
      else if x < 35 then "Obesity type I"
      else if x < 40 then "Obesity type II"
      else if x ≤ 45 then "Obesity type III"
      else "Hypermorbid Obesity type IV" := by
  simp only [getSituation, FloatVal.lt, FloatVal.le, FloatVal.ge, Bool.and_eq_true,
    decide_eq_true_eq]
  norm_num
  by_cases h1 : x < 16
  · simp only [h1, if_true]
  have g1 := not_lt.mp h1
  by_cases h2 : x < 17
  · simp only [h1, h2, g1, if_true, if_false, true_and]
  have g2 := not_lt.mp h2
  by_cases h3 : x < 37 / 2
  · simp only [h1, h2, h3, g1, g2, if_true, if_false, true_and, and_false]
  have g3 := not_lt.mp h3
  by_cases h4 : x < 25
  · simp only [h1, h2, h3, h4, g1, g2, g3, if_true, if_false, true_and, and_false]
  have g4 := not_lt.mp h4
  by_cases h5 : x < 30
  · simp only [h1, h2, h3, h4, h5, g1, g2, g3, g4, if_true, if_false, true_and, and_false]
  have g5 := not_lt.mp h5
  by_cases h6 : x < 35
  · simp only [h1, h2, h3, h4, h5, h6, g1, g2, g3, g4, g5, if_true, if_false, true_and,
      and_false]
  have g6 := not_lt.mp h6
  by_cases h7 : x < 40
  · simp only [h1, h2, h3, h4, h5, h6, h7, g1, g2, g3, g4, g5, g6, if_true, if_false,
      true_and, and_false]
  have g7 := not_lt.mp h7
  simp only [h1, h2, h3, h4, h5, h6, h7, g1, g2, g3, g4, g5, g6, g7, if_true, if_false,
    true_and, and_false]

/-- Every finite value lies in one of the nine rows and gets that row's label. -/
theorem getSituation_rows (x : α) :
    (x < 16 ∧ getSituation (fin x) = "Severe thinness (severe anorexia)") ∨
    (16 ≤ x ∧ x < 17 ∧ getSituation (fin x) = "Insufficient weight (moderate anorexia)") ∨
    (17 ≤ x ∧ x < 37 / 2 ∧ getSituation (fin x) = "Slight underweight") ∨
    (37 / 2 ≤ x ∧ x < 25 ∧ getSituation (fin x) = "Ideal weight (normal)") ∨
    (25 ≤ x ∧ x < 30 ∧ getSituation (fin x) = "Overweight") ∨
    (30 ≤ x ∧ x < 35 ∧ getSituation (fin x) = "Obesity type I") ∨
    (35 ≤ x ∧ x < 40 ∧ getSituation (fin x) = "Obesity type II") ∨
    (40 ≤ x ∧ x ≤ 45 ∧ getSituation (fin x) = "Obesity type III") ∨
    (45 < x ∧ getSituation (fin x) = "Hypermorbid Obesity type IV") := by
  rw [getSituation_fin]
  by_cases h1 : x < 16
  · exact Or.inl ⟨h1, by simp only [h1, if_true]⟩
  have g1 := not_lt.mp h1
  by_cases h2 : x < 17
  · exact Or.inr (Or.inl ⟨g1, h2, by simp only [h1, h2, if_true, if_false]⟩)
  have g2 := not_lt.mp h2
  by_cases h3 : x < 37 / 2
  · exact Or.inr (Or.inr (Or.inl ⟨g2, h3, by simp only [h1, h2, h3, if_true, if_false]⟩))
  have g3 := not_lt.mp h3
  by_cases h4 : x < 25
  · exact Or.inr (Or.inr (Or.inr (Or.inl
      ⟨g3, h4, by simp only [h1, h2, h3, h4, if_true, if_false]⟩)))
  have g4 := not_lt.mp h4
  by_cases h5 : x < 30
  · exact Or.inr (Or.inr (Or.inr (Or.inr (Or.inl
      ⟨g4, h5, by simp only [h1, h2, h3, h4, h5, if_true, if_false]⟩))))
  have g5 := not_lt.mp h5
  by_cases h6 : x < 35
  · exact Or.inr (Or.inr (Or.inr (Or.inr (Or.inr (Or.inl
      ⟨g5, h6, by simp only [h1, h2, h3, h4, h5, h6, if_true, if_false]⟩)))))
  have g6 := not_lt.mp h6
  by_cases h7 : x < 40
  · exact Or.inr (Or.inr (Or.inr (Or.inr (Or.inr (Or.inr (Or.inl
      ⟨g6, h7, by simp only [h1, h2, h3, h4, h5, h6, h7, if_true, if_false]⟩))))))
  have g7 := not_lt.mp h7
  by_cases h8 : x ≤ 45
  · exact Or.inr (Or.inr (Or.inr (Or.inr (Or.inr (Or.inr (Or.inr (Or.inl
      ⟨g7, h8, by simp only [h1, h2, h3, h4, h5, h6, h7, h8, if_true, if_false]⟩)))))))
  · exact Or.inr (Or.inr (Or.inr (Or.inr (Or.inr (Or.inr (Or.inr (Or.inr
      ⟨not_le.mp h8, by simp only [h1, h2, h3, h4, h5, h6, h7, h8, if_true, if_false]⟩)))))))

/-- C1, amended: for every BMI value `b` other than NaN (the infinities included)
`getSituation b` is the label of the one table row that contains `b`; each of the
nine labels is returned exactly on its range. -/
theorem getSituation_table (b : FloatVal α) (hb : b ≠ nan) :
    (getSituation b = "Severe thinness (severe anorexia)" ↔ lt b (fin 16.0) = true) ∧
    (getSituation b = "Insufficient weight (moderate anorexia)" ↔
      (le (fin 16.0) b = true ∧ lt b (fin 17.0) = true)) ∧
    (getSituation b = "Slight underweight" ↔
      (le (fin 17.0) b = true ∧ lt b (fin 18.5) = true)) ∧
    (getSituation b = "Ideal weight (normal)" ↔
      (le (fin 18.5) b = true ∧ lt b (fin 25.0) = true)) ∧
    (getSituation b = "Overweight" ↔
      (le (fin 25.0) b = true ∧ lt b (fin 30.0) = true)) ∧
    (getSituation b = "Obesity type I" ↔
      (le (fin 30.0) b = true ∧ lt b (fin 35.0) = true)) ∧
    (getSituation b = "Obesity type II" ↔
      (le (fin 35.0) b = true ∧ lt b (fin 40.0) = true)) ∧
    (getSituation b = "Obesity type III" ↔
      (le (fin 40.0) b = true ∧ le b (fin 45.0) = true)) ∧
    (getSituation b = "Hypermorbid Obesity type IV" ↔ lt (fin 45.0) b = true) := by
  cases b with
  | nan => exact absurd rfl hb
  | negInf => simp [getSituation, FloatVal.lt, FloatVal.le, FloatVal.ge]
  | posInf => simp [getSituation, FloatVal.lt, FloatVal.le, FloatVal.ge]
  | fin x =>
    simp only [FloatVal.lt, FloatVal.le, decide_eq_true_eq]
    norm_num
    rcases getSituation_rows x with h | h | h | h | h | h | h | h | h
    all_goals
      obtain ⟨h1, h2⟩ := h
      try obtain ⟨h2, h3⟩ := h2
      simp only [*]
      refine ⟨?_, ?_, ?_, ?_, ?_, ?_, ?_, ?_, ?_⟩ <;> simp <;> (try intros) <;> linarith

/-- C1, as stated, fails: height 0 and weight 0 give the BMI value NaN, which
`getSituation` labels 'Hypermorbid Obesity type IV' although `NaN > 45.0` is false. -/
theorem getSituation_nan_outside_table :
    getBMI 0 0 = nan ∧
    ¬ (getSituation (getBMI 0 0) = "Hypermorbid Obesity type IV" ↔
        lt (fin 45.0) (getBMI 0 0) = true) := by
  have h : getBMI 0 0 = nan := by
    have hp : (0 : ℝ) ^ (2.5 : ℝ) = 0 := Real.zero_rpow (by norm_num)
    simp [getBMI, bmiFormula, divFin, hp]
  refine ⟨h, ?_⟩
  rw [h]
  simp [getSituation, FloatVal.lt, FloatVal.le, FloatVal.ge]

/-- Witness of `getSituation_table` at the finite value 22. -/
theorem getSituation_table_witness :
    (fin (22 : ℚ)) ≠ nan ∧
    (getSituation (fin (22 : ℚ)) = "Ideal weight (normal)" ↔
      (le (fin 18.5) (fin (22 : ℚ)) = true ∧ lt (fin (22 : ℚ)) (fin 25.0) = true)) :=
  ⟨by decide, (getSituation_table (fin (22 : ℚ)) (by decide)).2.2.2.1⟩

/-- C2: the labels at the boundary values 16.0, 17.0, 18.5, 25.0, 45.0 and at 45.01. -/
theorem getSituation_boundaries :
    getSituation (fin (16.0 : α)) = "Insufficient weight (moderate anorexia)" ∧
    getSituation (fin (17.0 : α)) = "Slight underweight" ∧
    getSituation (fin (18.5 : α)) = "Ideal weight (normal)" ∧
    getSituation (fin (25.0 : α)) = "Overweight" ∧
    getSituation (fin (45.0 : α)) = "Obesity type III" ∧
    getSituation (fin (45.01 : α)) = "Hypermorbid Obesity type IV" := by
  simp only [getSituation_fin]
  norm_num

/-- The binary32 value nearest to 45.01 is `11799101 / 2 ^ 18`; it has the label of 45.01. -/
theorem getSituation_binary32_45_01 :
    getSituation (fin (11799101 / 2 ^ 18 : α)) = "Hypermorbid Obesity type IV" := by
  simp only [getSituation_fin]
  norm_num

end ClassifierFacts

/-! ## The formula -/

/-- The power `pow(height / 100, 2.5f)` is positive for a positive height. -/
theorem pow_height_pos (h : ℕ) (hh : 0 < h) : 0 < ((h : ℝ) / 100) ^ (2.5 : ℝ) := by
  apply Real.rpow_pos_of_pos
  have : (0 : ℝ) < h := by exact_mod_cast hh
  positivity

/-- For a positive height the BMI is the finite quotient. -/
theorem bmiFormula_of_pos (h : ℕ) (w : ℝ) (hh : 0 < h) :
    bmiFormula h w = fin (1.3 * w / ((h : ℝ) / 100) ^ (2.5 : ℝ)) := by
  unfold bmiFormula divFin
  rw [if_neg (pow_height_pos h hh).ne.symm]

/-- Both ideal weights are finite. -/
theorem getIdealWeight_eq (h : ℕ) :
    getIdealWeight h =
      (fin (18.5 * ((h : ℝ) / 100) ^ (2.5 : ℝ) / 1.3),
       fin (24.9 * ((h : ℝ) / 100) ^ (2.5 : ℝ) / 1.3)) := by
  have h13 : (1.3 : ℝ) ≠ 0 := by norm_num
  simp only [getIdealWeight, divFin, IDEAL_WEIGHT_MIN_BMI, IDEAL_WEIGHT_MAX_BMI, if_neg h13]

/-- C3: for heights and weights in 1..300 the BMI is strictly greater than 0. -/
theorem getBMI_pos (h w : ℕ) (hh : 0 < h) (_hh300 : h ≤ 300) (hw : 0 < w) (_hw300 : w ≤ 300) :
    lt (fin 0) (getBMI h w) = true := by
  have hp := pow_height_pos h hh
  have hw0 : (0 : ℝ) < w := by exact_mod_cast hw
  rw [getBMI, bmiFormula_of_pos h _ hh]
  simp only [FloatVal.lt, decide_eq_true_eq]
  positivity

/-- Witness of `getBMI_pos` at height 175 and weight 72. -/
theorem getBMI_pos_witness :
    (0 < 175 ∧ 175 ≤ 300 ∧ 0 < 72 ∧ 72 ≤ 300) ∧ lt (fin 0) (getBMI 175 72) = true :=
  ⟨by decide, getBMI_pos 175 72 (by decide) (by decide) (by decide) (by decide)⟩

/-- C4: for a positive height the BMI is strictly increasing in the weight. -/
theorem getBMI_strictMono_weight (h w1 w2 : ℕ) (hh : 0 < h) (hw : w1 < w2) :
    lt (getBMI h w1) (getBMI h w2) = true := by
  have hp := pow_height_pos h hh
  have hw0 : (w1 : ℝ) < w2 := by exact_mod_cast hw
  rw [getBMI, getBMI, bmiFormula_of_pos h _ hh, bmiFormula_of_pos h _ hh]
  simp only [FloatVal.lt, decide_eq_true_eq]
  apply div_lt_div_of_pos_right _ hp
  linarith

/-- Witness of `getBMI_strictMono_weight` at height 175 and weights 72 < 73. -/
theorem getBMI_strictMono_weight_witness :
    (0 < 175 ∧ 72 < 73) ∧ lt (getBMI 175 72) (getBMI 175 73) = true :=
  ⟨by decide, getBMI_strictMono_weight 175 72 73 (by decide) (by decide)⟩

/-- C5: for a positive weight the BMI is strictly decreasing in the (positive) height. -/
theorem getBMI_strictAnti_height (w h1 h2 : ℕ) (hw : 0 < w) (hh1 : 0 < h1) (hh : h1 < h2) :
    gt (getBMI h1 w) (getBMI h2 w) = true := by
  have hp1 := pow_height_pos h1 hh1
  have hw0 : (0 : ℝ) < w := by exact_mod_cast hw
  have h10 : (0 : ℝ) < h1 := by exact_mod_cast hh1
  have h12 : (h1 : ℝ) < h2 := by exact_mod_cast hh
  have hlt : ((h1 : ℝ) / 100) ^ (2.5 : ℝ) < ((h2 : ℝ) / 100) ^ (2.5 : ℝ) := by
    apply Real.rpow_lt_rpow (by positivity) _ (by norm_num)
    linarith
  rw [getBMI, getBMI, bmiFormula_of_pos h1 _ hh1, bmiFormula_of_pos h2 _ (hh1.trans hh)]
  simp only [FloatVal.gt, FloatVal.lt, decide_eq_true_eq]
  exact div_lt_div_of_pos_left (by positivity) hp1 hlt

/-- Witness of `getBMI_strictAnti_height` at weight 72 and heights 175 < 176. -/
theorem getBMI_strictAnti_height_witness :
    (0 < 72 ∧ 0 < 175 ∧ 175 < 176) ∧ gt (getBMI 175 72) (getBMI 176 72) = true :=
  ⟨by decide, getBMI_strictAnti_height 72 175 176 (by decide) (by decide) (by decide)⟩

/-- C6: for a positive height the pair of `getIdealWeight` is (min, max) with min < max. -/
theorem getIdealWeight_min_lt_max (h : ℕ) (hh : 0 < h) :
    lt (getIdealWeight h).1 (getIdealWeight h).2 = true := by
  have hp := pow_height_pos h hh
  rw [getIdealWeight_eq]
  simp only [FloatVal.lt, decide_eq_true_eq]
  apply div_lt_div_of_pos_right _ (by norm_num)
  nlinarith

/-- Witness of `getIdealWeight_min_lt_max` at height 175. -/
theorem getIdealWeight_min_lt_max_witness :
    0 < 175 ∧ lt (getIdealWeight 175).1 (getIdealWeight 175).2 = true :=
  ⟨by decide, getIdealWeight_min_lt_max 175 (by decide)⟩

/-- Without rounding the round trip is exact: in exact arithmetic the BMI formula
gives 18.5 on the minimum weight of `getIdealWeight` and 24.9 on the maximum
weight, for every positive height.  What the binary32 code does is settled in
the section on binary32 rounding. -/
theorem roundTrip_exact_arithmetic (h : ℕ) (hh : 0 < h) :
    ∃ minWeight maxWeight : ℝ,
      getIdealWeight h = (fin minWeight, fin maxWeight) ∧
      bmiFormula h minWeight = fin 18.5 ∧
      bmiFormula h maxWeight = fin 24.9 := by
  have hp := (pow_height_pos h hh).ne.symm
  refine ⟨_, _, getIdealWeight_eq h, ?_, ?_⟩
  · rw [bmiFormula_of_pos h _ hh]
    congr 1
    field_simp
  · rw [bmiFormula_of_pos h _ hh]
    congr 1
    field_simp

/-- The square of `x ^ 2.5` is `x ^ 5`. -/
theorem rpow_five_halves_sq (x : ℝ) (hx : 0 ≤ x) : (x ^ (2.5 : ℝ)) ^ 2 = x ^ 5 := by
  rw [← Real.rpow_natCast (x ^ (2.5 : ℝ)) 2, ← Real.rpow_mul hx, ← Real.rpow_natCast x 5]
  norm_num

/-- The power `pow(175 / 100, 2.5f)` lies between 4.05 and 4.0525. -/
theorem pow_height_175 :
    4.05 < (((175 : ℕ) : ℝ) / 100) ^ (2.5 : ℝ) ∧
    (((175 : ℕ) : ℝ) / 100) ^ (2.5 : ℝ) < 4.0525 := by
  have hpos := pow_height_pos 175 (by decide)
  have hsq := rpow_five_halves_sq (((175 : ℕ) : ℝ) / 100) (by positivity)
  have h5 : (((175 : ℕ) : ℝ) / 100) ^ 5 = 16.4130859375 := by norm_num
  rw [h5] at hsq
  constructor
  · by_contra hc
    rw [not_lt] at hc
    nlinarith
  · by_contra hc
    rw [not_lt] at hc
    nlinarith

/-- C8: the BMI of height 175 and weight 72 is within 0.05 of 23.10, and 23.10 has
the label 'Ideal weight (normal)'. -/
theorem getBMI_175_72 :
    (∃ b : ℝ, getBMI 175 72 = fin b ∧ |b - 23.10| ≤ 0.05) ∧
    getSituation (fin (23.10 : ℝ)) = "Ideal weight (normal)" := by
  obtain ⟨hlo, hhi⟩ := pow_height_175
  have hpos := pow_height_pos 175 (by decide)
  refine ⟨⟨_, by rw [getBMI, bmiFormula_of_pos 175 _ (by decide)], ?_⟩, ?_⟩
  · rw [abs_le]
    constructor
    · rw [le_sub_iff_add_le, le_div_iff₀ hpos]
      norm_num at hlo hhi ⊢
      linarith
    · rw [sub_le_iff_le_add, div_le_iff₀ hpos]
      norm_num at hlo hhi ⊢
      linarith
  · rw [getSituation_fin]
    norm_num

/-- C9, as stated, fails: for height 175 the minimum ideal weight is more than
0.05 away from 19.88 and the maximum more than 0.05 away from 26.77. -/
theorem getIdealWeight_175_not_19_88 :
    ∃ minWeight maxWeight : ℝ,
      getIdealWeight 175 = (fin minWeight, fin maxWeight) ∧
      ¬ |minWeight - 19.88| ≤ 0.05 ∧ ¬ |maxWeight - 26.77| ≤ 0.05 := by
  obtain ⟨hlo, hhi⟩ := pow_height_175
  refine ⟨_, _, getIdealWeight_eq 175, ?_, ?_⟩
  · intro habs
    have h2 := (abs_le.mp habs).2
    rw [sub_le_iff_le_add, div_le_iff₀ (by norm_num)] at h2
    norm_num at hlo h2
    linarith
  · intro habs
    have h2 := (abs_le.mp habs).2
    rw [sub_le_iff_le_add, div_le_iff₀ (by norm_num)] at h2
    norm_num at hlo h2
    linarith

/-- C9, amended: the ideal weights for height 175 are within 0.05 of 57.65 and of 77.60. -/
theorem getIdealWeight_175 :
    ∃ minWeight maxWeight : ℝ,
      getIdealWeight 175 = (fin minWeight, fin maxWeight) ∧
      |minWeight - 57.65| ≤ 0.05 ∧ |maxWeight - 77.60| ≤ 0.05 := by
  obtain ⟨hlo, hhi⟩ := pow_height_175
  refine ⟨_, _, getIdealWeight_eq 175, ?_, ?_⟩
  · rw [abs_le]
    constructor
    · rw [le_sub_iff_add_le, le_div_iff₀ (by norm_num)]
      norm_num at hlo hhi ⊢
      linarith
    · rw [sub_le_iff_le_add, div_le_iff₀ (by norm_num)]
      norm_num at hlo hhi ⊢
      linarith
  · rw [abs_le]
    constructor
    · rw [le_sub_iff_add_le, le_div_iff₀ (by norm_num)]
      norm_num at hlo hhi ⊢
      linarith
    · rw [sub_le_iff_le_add, div_le_iff₀ (by norm_num)]
      norm_num at hlo hhi ⊢
      linarith

/-! ## Binary32 rounding -/

/-- Rounding to the nearest integer moves a value by at most one half. -/
theorem roundEven_sub_le (t : ℝ) : |(roundEven t : ℝ) - t| ≤ 1 / 2 := by
  have h1 := Int.floor_le t
  have h2 := Int.lt_floor_add_one t
  unfold roundEven
  split_ifs with ha hb hc
  · rw [abs_le]; constructor <;> linarith
  · rw [abs_le]; push_cast; constructor <;> linarith
  · rw [abs_le]; constructor <;> linarith
  · rw [abs_le]; push_cast; constructor <;> linarith

/-- A value less than one half away from an integer rounds to it. -/
theorem roundEven_eq_of (t : ℝ) (M : ℤ) (h : |t - M| < 1 / 2) : roundEven t = M := by
  rw [abs_lt] at h
  obtain ⟨h1, h2⟩ := h
  have hr := roundEven_sub_le t
  rw [abs_le] at hr
  have hlt : |((roundEven t - M : ℤ) : ℝ)| < 1 := by
    rw [abs_lt]; push_cast; constructor <;> linarith [hr.1, hr.2]
  have hz : |roundEven t - M| < 1 := by exact_mod_cast hlt
  have := Int.abs_lt_one_iff.mp hz
  omega

/-- The binary exponent of a positive value between two powers of two. -/
theorem log2_eq_of (x : ℝ) (k : ℤ) (hlo : (2 : ℝ) ^ k ≤ x) (hhi : x < (2 : ℝ) ^ (k + 1)) :
    Int.log 2 x = k := by
  have hx : 0 < x := lt_of_lt_of_le (by positivity) hlo
  have h1 : k ≤ Int.log 2 x := by
    rw [← Int.zpow_le_iff_le_log (by norm_num) hx]
    exact_mod_cast hlo
  have h2 : Int.log 2 x < k + 1 := by
    rw [← Int.lt_zpow_iff_log_lt (by norm_num) hx]
    exact_mod_cast hhi
  omega

/-- Evaluation of `round32`: a positive `x` with binary exponent `E + 23` that is
less than half a unit of `2 ^ E` away from `M * 2 ^ E` rounds to `M * 2 ^ E`. -/
theorem round32_eq_of (x : ℝ) (M E : ℤ) (hlo : (2 : ℝ) ^ (E + 23) ≤ x)
    (hhi : x < (2 : ℝ) ^ (E + 23 + 1)) (hnear : |x / 2 ^ E - M| < 1 / 2) :
    round32 x = M * 2 ^ E := by
  have hx : 0 < x := lt_of_lt_of_le (by positivity) hlo
  have hlog : Int.log 2 |x| = E + 23 := by
    rw [abs_of_pos hx]
    exact log2_eq_of x (E + 23) hlo hhi
  unfold round32
  rw [if_neg hx.ne.symm, hlog]
  have hE : E + 23 - 23 = E := by ring
  rw [hE, roundEven_eq_of _ M hnear]

/-- The relative error of `round32` on a positive value is at most `2 ^ (-24)`. -/
theorem round32_near (x : ℝ) (hx : 0 < x) :
    x * (1 - 2 ^ (-24 : ℤ)) ≤ round32 x ∧ round32 x ≤ x * (1 + 2 ^ (-24 : ℤ)) := by
  have hlog : (2 : ℝ) ^ Int.log 2 |x| ≤ x := by
    rw [abs_of_pos hx]
    have := Int.zpow_log_le_self (b := 2) (by norm_num) hx
    exact_mod_cast this
  set e := Int.log 2 |x| with he
  have hq : (0 : ℝ) < 2 ^ (e - 23) := by positivity
  have hr := roundEven_sub_le (x / 2 ^ (e - 23))
  rw [abs_le] at hr
  have hsplit : (2 : ℝ) ^ (e - 23) = 2 ^ e * 2 ^ (-24 : ℤ) * 2 := by
    rw [show e - 23 = e + (-24) + 1 by ring, zpow_add₀ (by norm_num), zpow_add₀ (by norm_num)]
    norm_num
  have hu : (0 : ℝ) < 2 ^ (-24 : ℤ) := by positivity
  have hxq : x / 2 ^ (e - 23) * 2 ^ (e - 23) = x := by field_simp
  unfold round32
  rw [if_neg hx.ne.symm, ← he]
  have hA : (x / 2 ^ (e - 23) - 1 / 2) * 2 ^ (e - 23) ≤
      (roundEven (x / 2 ^ (e - 23)) : ℝ) * 2 ^ (e - 23) :=
    mul_le_mul_of_nonneg_right (by linarith [hr.1]) hq.le
  have hB : (roundEven (x / 2 ^ (e - 23)) : ℝ) * 2 ^ (e - 23) ≤
      (x / 2 ^ (e - 23) + 1 / 2) * 2 ^ (e - 23) :=
    mul_le_mul_of_nonneg_right (by linarith [hr.2]) hq.le
  rw [sub_mul, hxq] at hA
  rw [add_mul, hxq] at hB
  have hhalf : 1 / 2 * (2 : ℝ) ^ (e - 23) ≤ x * 2 ^ (-24 : ℤ) := by
    rw [hsplit]
    nlinarith [mul_le_mul_of_nonneg_right hlog hu.le]
  constructor <;> nlinarith

/-- Rounding keeps a positive value positive. -/
theorem round32_pos (x : ℝ) (hx : 0 < x) : 0 < round32 x := by
  have h := (round32_near x hx).1
  have hu : (2 : ℝ) ^ (-24 : ℤ) < 1 := by norm_num
  have : 0 < x * (1 - 2 ^ (-24 : ℤ)) := by nlinarith
  linarith

/-- The round trip of a target value `T` through the inverse formula and the
formula, five roundings in all, stays within the factor `(1 ± 2 ^ (-24)) ^ 5`
of `T`, whatever the positive power `p` and the positive constant `c` are. -/
theorem roundTrip32_near (T p c : ℝ) (hT : 0 < T) (hp : 0 < p) (hc : 0 < c) :
    T * (1 - 2 ^ (-24 : ℤ)) ^ 5 ≤
        round32 (round32 (c * round32 (round32 (round32 T * p) / c)) / p) ∧
    round32 (round32 (c * round32 (round32 (round32 T * p) / c)) / p) ≤
        T * (1 + 2 ^ (-24 : ℤ)) ^ 5 := by
  have hA : (0 : ℝ) < 1 - 2 ^ (-24 : ℤ) := by norm_num
  have hB : (0 : ℝ) < 1 + 2 ^ (-24 : ℤ) := by norm_num
  set A : ℝ := 1 - 2 ^ (-24 : ℤ) with hAdef
  set B : ℝ := 1 + 2 ^ (-24 : ℤ) with hBdef
  have p0 := round32_pos T hT
  have h0 := round32_near T hT
  set t0 := round32 T with ht0
  have p1 := round32_pos (t0 * p) (by positivity)
  have h1 := round32_near (t0 * p) (by positivity)
  set t1 := round32 (t0 * p) with ht1
  have p2 := round32_pos (t1 / c) (by positivity)
  have h2 := round32_near (t1 / c) (by positivity)
  set mn := round32 (t1 / c) with hmn
  have p3 := round32_pos (c * mn) (by positivity)
  have h3 := round32_near (c * mn) (by positivity)
  set t3 := round32 (c * mn) with ht3
  have h4 := round32_near (t3 / p) (by positivity)
  set b := round32 (t3 / p) with hb
  constructor
  · have k1 : T * p * A ^ 2 ≤ t1 :=
      calc T * p * A ^ 2 = (T * A) * p * A := by ring
        _ ≤ t0 * p * A := by gcongr; exact h0.1
        _ ≤ t1 := h1.1
    have k2 : T * p * A ^ 3 / c ≤ mn :=
      calc T * p * A ^ 3 / c = (T * p * A ^ 2) / c * A := by ring
        _ ≤ t1 / c * A := by gcongr
        _ ≤ mn := h2.1
    have k3 : T * p * A ^ 4 ≤ t3 :=
      calc T * p * A ^ 4 = c * (T * p * A ^ 3 / c) * A := by field_simp; ring
        _ ≤ c * mn * A := by gcongr
        _ ≤ t3 := h3.1
    calc T * A ^ 5 = (T * p * A ^ 4) / p * A := by field_simp; ring
      _ ≤ t3 / p * A := by gcongr
      _ ≤ b := h4.1
  · have k1 : t1 ≤ T * p * B ^ 2 :=
      calc t1 ≤ t0 * p * B := h1.2
        _ ≤ (T * B) * p * B := by gcongr; exact h0.2
        _ = T * p * B ^ 2 := by ring
    have k2 : mn ≤ T * p * B ^ 3 / c :=
      calc mn ≤ t1 / c * B := h2.2
        _ ≤ (T * p * B ^ 2) / c * B := by gcongr
        _ = T * p * B ^ 3 / c := by ring
    have k3 : t3 ≤ T * p * B ^ 4 :=
      calc t3 ≤ c * mn * B := h3.2
        _ ≤ c * (T * p * B ^ 3 / c) * B := by gcongr
        _ = T * p * B ^ 4 := by field_simp; ring
    calc b ≤ t3 / p * B := h4.2
      _ ≤ (T * p * B ^ 4) / p * B := by gcongr
      _ = T * B ^ 5 := by field_simp; ring

/-- The power `powf(height / 100, 2.5f)` is positive for a positive height. -/
theorem powf_height_pos (h : ℕ) (hh : 0 < h) : 0 < powf (round32 ((h : ℝ) / 100)) 2.5 := by
  have h0 : (0 : ℝ) < h := by exact_mod_cast hh
  have hx : 0 < round32 ((h : ℝ) / 100) := round32_pos _ (by positivity)
  exact round32_pos _ (Real.rpow_pos_of_pos hx _)

/-- For a positive height the binary32 BMI is the rounded quotient. -/
theorem bmiFormula32_of_pos (h : ℕ) (w : ℝ) (hh : 0 < h) :
    bmiFormula32 h w =
      fin (round32 (round32 (round32 1.3 * w) / powf (round32 ((h : ℝ) / 100)) 2.5)) := by
  unfold bmiFormula32 divFin32
  rw [if_neg (powf_height_pos h hh).ne.symm]

/-- Both binary32 ideal weights are finite. -/
theorem getIdealWeight32_eq (h : ℕ) :
    getIdealWeight32 h =
      (fin (round32
        (round32 (round32 18.5 * powf (round32 ((h : ℝ) / 100)) 2.5) / round32 1.3)),
       fin (round32
        (round32 (round32 24.9 * powf (round32 ((h : ℝ) / 100)) 2.5) / round32 1.3))) := by
  have hc : 0 < round32 1.3 := round32_pos _ (by norm_num)
  simp only [getIdealWeight32, divFin32, if_neg hc.ne.symm]

/-- C7, amended: for a positive height the BMI formula in binary32 gives, on the
minimum weight of `getIdealWeight`, a value within 0.00001 of 18.5 and, on the
maximum weight, a value within 0.00001 of 24.9. -/
theorem getIdealWeight32_inverts_formula (h : ℕ) (hh : 0 < h) :
    ∃ minWeight maxWeight bmiMin bmiMax : ℝ,
      getIdealWeight32 h = (fin minWeight, fin maxWeight) ∧
      bmiFormula32 h minWeight = fin bmiMin ∧
      bmiFormula32 h maxWeight = fin bmiMax ∧
      |bmiMin - 18.5| ≤ 0.00001 ∧ |bmiMax - 24.9| ≤ 0.00001 := by
  have hp := powf_height_pos h hh
  have hc : 0 < round32 1.3 := round32_pos _ (by norm_num)
  have hmin := roundTrip32_near 18.5 _ _ (by norm_num) hp hc
  have hmax := roundTrip32_near 24.9 _ _ (by norm_num) hp hc
  refine ⟨_, _, _, _, getIdealWeight32_eq h, bmiFormula32_of_pos h _ hh,
    bmiFormula32_of_pos h _ hh, ?_, ?_⟩
  · rw [abs_le]
    constructor
    · have : (18.5 : ℝ) - 0.00001 ≤ 18.5 * (1 - 2 ^ (-24 : ℤ)) ^ 5 := by norm_num
      linarith [hmin.1]
    · have : (18.5 : ℝ) * (1 + 2 ^ (-24 : ℤ)) ^ 5 ≤ 18.5 + 0.00001 := by norm_num
      linarith [hmin.2]
  · rw [abs_le]
    constructor
    · have : (24.9 : ℝ) - 0.00001 ≤ 24.9 * (1 - 2 ^ (-24 : ℤ)) ^ 5 := by norm_num
      linarith [hmax.1]
    · have : (24.9 : ℝ) * (1 + 2 ^ (-24 : ℤ)) ^ 5 ≤ 24.9 + 0.00001 := by norm_num
      linarith [hmax.2]

/-- Evaluation of `round32` at a value `v = M * 2 ^ E`: a positive `x` with binary
exponent `E + 23` less than half a unit of `2 ^ E` away from `v` rounds to `v`. -/
theorem round32_eval (x v : ℝ) (M E : ℤ) (hv : v = M * 2 ^ E)
    (hlo : (2 : ℝ) ^ (E + 23) ≤ x) (hhi : x < (2 : ℝ) ^ (E + 23 + 1))
    (h1 : v - 2 ^ E / 2 < x) (h2 : x < v + 2 ^ E / 2) : round32 x = v := by
  have hq : (0 : ℝ) < 2 ^ E := by positivity
  rw [hv]
  apply round32_eq_of x M E hlo hhi
  rw [abs_lt]
  rw [hv] at h1 h2
  constructor
  · rw [lt_sub_iff_add_lt, lt_div_iff₀ hq]
    linarith
  · rw [sub_lt_iff_lt_add, div_lt_iff₀ hq]
    linarith

/-- The binary32 constants `1.3f`, `18.5f` and `24.9f`. -/
theorem round32_constants :
    round32 1.3 = 10905190 / 8388608 ∧ round32 18.5 = 18.5 ∧
    round32 24.9 = 13054771 / 524288 := by
  refine ⟨?_, ?_, ?_⟩
  · exact round32_eval _ _ 10905190 (-23) (by norm_num) (by norm_num) (by norm_num)
      (by norm_num) (by norm_num)
  · exact round32_eval _ _ 9699328 (-19) (by norm_num) (by norm_num) (by norm_num)
      (by norm_num) (by norm_num)
  · exact round32_eval _ _ 13054771 (-19) (by norm_num) (by norm_num) (by norm_num)
      (by norm_num) (by norm_num)

/-- The binary32 power at height 144: `powf(1.44f, 2.5f)` is `10436772 / 2 ^ 22`. -/
theorem powf_height_144 :
    powf (round32 (((144 : ℕ) : ℝ) / 100)) 2.5 = 10436772 / 4194304 := by
  have hx : round32 (((144 : ℕ) : ℝ) / 100) = 12079596 / 8388608 :=
    round32_eval _ _ 12079596 (-23) (by norm_num) (by norm_num) (by norm_num)
      (by norm_num) (by norm_num)
  rw [hx]
  have hpos : (0 : ℝ) < (12079596 / 8388608 : ℝ) ^ (2.5 : ℝ) :=
    Real.rpow_pos_of_pos (by norm_num) _
  have hsq := rpow_five_halves_sq (12079596 / 8388608 : ℝ) (by norm_num)
  have hlo : (20873543 / 8388608 : ℝ) < (12079596 / 8388608 : ℝ) ^ (2.5 : ℝ) := by
    apply lt_of_pow_lt_pow_left₀ 2 hpos.le
    rw [hsq]; norm_num
  have hhi : (12079596 / 8388608 : ℝ) ^ (2.5 : ℝ) < 20873545 / 8388608 := by
    apply lt_of_pow_lt_pow_left₀ 2 (by norm_num)
    rw [hsq]; norm_num
  unfold powf
  exact round32_eval _ _ 10436772 (-22) (by norm_num) (by norm_num; linarith)
    (by norm_num; linarith) (by norm_num; linarith) (by norm_num; linarith)

/-- C7, as stated, fails in binary32: at height 144 the formula gives
`9699327 / 2 ^ 19` (18.4999981) on the minimum weight, not 18.5, and
`13054770 / 2 ^ 19` (24.8999977) on the maximum weight, not 24.9. -/
theorem roundTrip32_inexact_144 :
    getIdealWeight32 144 = (fin (9282706 / 262144), fin (12494020 / 262144)) ∧
    bmiFormula32 144 (9282706 / 262144) = fin (9699327 / 524288) ∧
    bmiFormula32 144 (12494020 / 262144) = fin (13054770 / 524288) ∧
    (9699327 / 524288 : ℝ) ≠ 18.5 ∧ (13054770 / 524288 : ℝ) ≠ 24.9 := by
  obtain ⟨h13, h185, h249⟩ := round32_constants
  have hp := powf_height_144
  have hmin : round32 (round32 ((18.5 : ℝ) * (10436772 / 4194304)) / (10905190 / 8388608)) =
      9282706 / 262144 := by
    have ha : round32 ((18.5 : ℝ) * (10436772 / 4194304)) = 12067518 / 262144 :=
      round32_eval _ _ 12067518 (-18) (by norm_num) (by norm_num) (by norm_num)
        (by norm_num) (by norm_num)
    rw [ha]
    exact round32_eval _ _ 9282706 (-18) (by norm_num) (by norm_num) (by norm_num)
      (by norm_num) (by norm_num)
  have hmax : round32 (round32 ((13054771 / 524288 : ℝ) * (10436772 / 4194304)) /
      (10905190 / 8388608)) = 12494020 / 262144 := by
    have ha : round32 ((13054771 / 524288 : ℝ) * (10436772 / 4194304)) = 16242226 / 262144 :=
      round32_eval _ _ 16242226 (-18) (by norm_num) (by norm_num) (by norm_num)
        (by norm_num) (by norm_num)
    rw [ha]
    exact round32_eval _ _ 12494020 (-18) (by norm_num) (by norm_num) (by norm_num)
      (by norm_num) (by norm_num)
  have hbmin : round32 (round32 ((10905190 / 8388608 : ℝ) * (9282706 / 262144)) /
      (10436772 / 4194304)) = 9699327 / 524288 := by
    have ht : round32 ((10905190 / 8388608 : ℝ) * (9282706 / 262144)) = 12067517 / 262144 :=
      round32_eval _ _ 12067517 (-18) (by norm_num) (by norm_num) (by norm_num)
        (by norm_num) (by norm_num)
    rw [ht]
    exact round32_eval _ _ 9699327 (-19) (by norm_num) (by norm_num) (by norm_num)
      (by norm_num) (by norm_num)
  have hbmax : round32 (round32 ((10905190 / 8388608 : ℝ) * (12494020 / 262144)) /
      (10436772 / 4194304)) = 13054770 / 524288 := by
    have ht : round32 ((10905190 / 8388608 : ℝ) * (12494020 / 262144)) = 16242225 / 262144 :=
      round32_eval _ _ 16242225 (-18) (by norm_num) (by norm_num) (by norm_num)
        (by norm_num) (by norm_num)
    rw [ht]
    exact round32_eval _ _ 13054770 (-19) (by norm_num) (by norm_num) (by norm_num)
      (by norm_num) (by norm_num)
  refine ⟨?_, ?_, ?_, by norm_num, by norm_num⟩
  · rw [getIdealWeight32_eq, hp, h13, h185, h249, hmin, hmax]
  · rw [bmiFormula32_of_pos 144 _ (by decide), hp, h13, hbmin]
  · rw [bmiFormula32_of_pos 144 _ (by decide), hp, h13, hbmax]

/-- Witness of `getIdealWeight32_inverts_formula` at height 144. -/
theorem getIdealWeight32_inverts_formula_witness :
    0 < 144 ∧
    ∃ minWeight maxWeight bmiMin bmiMax : ℝ,
      getIdealWeight32 144 = (fin minWeight, fin maxWeight) ∧
      bmiFormula32 144 minWeight = fin bmiMin ∧
      bmiFormula32 144 maxWeight = fin bmiMax ∧
      |bmiMin - 18.5| ≤ 0.00001 ∧ |bmiMax - 24.9| ≤ 0.00001 :=
  ⟨by decide, getIdealWeight32_inverts_formula 144 (by decide)⟩

/-! ## Rounding keeps the order -/

/-- The rounded value is the floor or the floor plus one. -/
theorem roundEven_bounds (t : ℝ) : ⌊t⌋ ≤ roundEven t ∧ roundEven t ≤ ⌊t⌋ + 1 := by
  unfold roundEven
  split_ifs <;> constructor <;> omega

/-- Rounding to the nearest integer keeps the order. -/
theorem roundEven_mono (t s : ℝ) (h : t ≤ s) : roundEven t ≤ roundEven s := by
  have hf : ⌊t⌋ ≤ ⌊s⌋ := Int.floor_le_floor h
  rcases hf.lt_or_eq with hlt | heq
  · have h1 := (roundEven_bounds t).2
    have h2 := (roundEven_bounds s).1
    omega
  · unfold roundEven
    rw [heq]
    split_ifs <;> first | omega | (exfalso; linarith)

/-- An integer rounds to itself. -/
theorem roundEven_intCast (N : ℤ) : roundEven (N : ℝ) = N := by
  unfold roundEven
  simp

/-- The rounding of a positive value with binary exponent `E + 23`, as a
multiple of `2 ^ E`. -/
theorem round32_of_exponent (x : ℝ) (E : ℤ) (hlo : (2 : ℝ) ^ (E + 23) ≤ x)
    (hhi : x < (2 : ℝ) ^ (E + 23 + 1)) :
    round32 x = roundEven (x / 2 ^ E) * 2 ^ E := by
  have hx : 0 < x := lt_of_lt_of_le (by positivity) hlo
  have hlog : Int.log 2 |x| = E + 23 := by
    rw [abs_of_pos hx]
    exact log2_eq_of x (E + 23) hlo hhi
  unfold round32
  rw [if_neg hx.ne.symm, hlog]
  have hE : E + 23 - 23 = E := by ring
  rw [hE]

/-- A positive value lies between the powers of two of its binary exponent. -/
theorem log2_bounds (x : ℝ) (hx : 0 < x) :
    (2 : ℝ) ^ (Int.log 2 x) ≤ x ∧ x < (2 : ℝ) ^ (Int.log 2 x + 1) := by
  constructor
  · have := Int.zpow_log_le_self (b := 2) (by norm_num) hx
    exact_mod_cast this
  · have := Int.lt_zpow_succ_log_self (b := 2) (by norm_num) x
    exact_mod_cast this

/-- The rounding of a positive value stays between the powers of two around it. -/
theorem round32_between (x : ℝ) (hx : 0 < x) :
    (2 : ℝ) ^ (Int.log 2 x) ≤ round32 x ∧ round32 x ≤ (2 : ℝ) ^ (Int.log 2 x + 1) := by
  obtain ⟨hlo, hhi⟩ := log2_bounds x hx
  set e := Int.log 2 x with he
  have hlo' : (2 : ℝ) ^ (e - 23 + 23) ≤ x := by rw [sub_add_cancel]; exact hlo
  have hhi' : x < (2 : ℝ) ^ (e - 23 + 23 + 1) := by rw [sub_add_cancel]; exact hhi
  rw [round32_of_exponent x (e - 23) hlo' hhi']
  have hq : (0 : ℝ) < 2 ^ (e - 23) := by positivity
  have h23 : (2 : ℝ) ^ e = ((2 ^ 23 : ℤ) : ℝ) * 2 ^ (e - 23) := by
    rw [show e = (23 : ℤ) + (e - 23) by ring, zpow_add₀ (by norm_num)]
    norm_num
  have h24 : (2 : ℝ) ^ (e + 1) = ((2 ^ 24 : ℤ) : ℝ) * 2 ^ (e - 23) := by
    rw [show e + 1 = (24 : ℤ) + (e - 23) by ring, zpow_add₀ (by norm_num)]
    norm_num
  constructor
  · rw [h23]
    apply mul_le_mul_of_nonneg_right _ hq.le
    have h1 : ((2 ^ 23 : ℤ) : ℝ) ≤ x / 2 ^ (e - 23) := by
      rw [le_div_iff₀ hq, ← h23]; exact hlo
    have h2 := roundEven_mono _ _ h1
    rw [roundEven_intCast] at h2
    exact_mod_cast h2
  · rw [h24]
    apply mul_le_mul_of_nonneg_right _ hq.le
    have h1 : x / 2 ^ (e - 23) ≤ ((2 ^ 24 : ℤ) : ℝ) := by
      rw [div_le_iff₀ hq, ← h24]; exact hhi.le
    have h2 := roundEven_mono _ _ h1
    rw [roundEven_intCast] at h2
    exact_mod_cast h2

/-- Binary32 rounding keeps the order of positive values. -/
theorem round32_mono (x y : ℝ) (hx : 0 < x) (hxy : x ≤ y) : round32 x ≤ round32 y := by
  have hy : 0 < y := lt_of_lt_of_le hx hxy
  have hlog : Int.log 2 x ≤ Int.log 2 y := Int.log_mono_right hx hxy
  rcases hlog.lt_or_eq with hlt | heq
  · have h1 := (round32_between x hx).2
    have h2 := (round32_between y hy).1
    have h3 : (2 : ℝ) ^ (Int.log 2 x + 1) ≤ 2 ^ (Int.log 2 y) :=
      zpow_le_zpow_right₀ (by norm_num) (by omega)
    linarith
  · obtain ⟨hlo, hhi⟩ := log2_bounds x hx
    obtain ⟨hlo2, hhi2⟩ := log2_bounds y hy
    rw [← heq] at hlo2 hhi2
    set e := Int.log 2 x with he
    have hq : (0 : ℝ) < 2 ^ (e - 23) := by positivity
    rw [round32_of_exponent x (e - 23) (by rw [sub_add_cancel]; exact hlo)
        (by rw [sub_add_cancel]; exact hhi),
      round32_of_exponent y (e - 23) (by rw [sub_add_cancel]; exact hlo2)
        (by rw [sub_add_cancel]; exact hhi2)]
    apply mul_le_mul_of_nonneg_right _ hq.le
    have := roundEven_mono (x / 2 ^ (e - 23)) (y / 2 ^ (e - 23)) (by gcongr)
    exact_mod_cast this

/-! ## The exact evaluation is the binary32 model -/

/-- The function `withNat` is application. -/
theorem withNat_eq {α : Type} (n : ℕ) (k : ℕ → α) : withNat n k = k n := by
  cases n <;> rfl

/-- The rounded quotient, as a chain of cases. -/
theorem roundDiv_eq (N d : ℕ) :
    roundDiv N d =
      if 2 * (N % d) < d then N / d
      else if d < 2 * (N % d) then N / d + 1
      else if (N / d) % 2 = 0 then N / d else N / d + 1 := by
  simp only [roundDiv, withNat_eq, Bool.cond_eq_ite, Nat.blt_eq, Nat.beq_eq]

/-- The function `roundDiv` is `roundEven` on a quotient of natural numbers. -/
theorem roundEven_div (N d : ℕ) (hd : 0 < d) :
    roundEven ((N : ℝ) / d) = (roundDiv N d : ℤ) := by
  have hd0 : (0 : ℝ) < d := by exact_mod_cast hd
  have hfl : ⌊(N : ℝ) / d⌋ = ((N / d : ℕ) : ℤ) := by
    rw [← Int.natCast_floor_eq_floor (by positivity), Nat.floor_div_eq_div]
  have hN : (N : ℝ) = (d : ℝ) * ((N / d : ℕ) : ℝ) + ((N % d : ℕ) : ℝ) := by
    exact_mod_cast (Nat.div_add_mod N d).symm
  have hfr : (N : ℝ) / d - (((N / d : ℕ) : ℤ) : ℝ) = ((N % d : ℕ) : ℝ) / d := by
    rw [Int.cast_natCast, div_sub' _ _ _ hd0.ne.symm, hN]
    congr 1
    ring
  have c1 : ((N % d : ℕ) : ℝ) / d < 1 / 2 ↔ 2 * (N % d) < d := by
    rw [div_lt_iff₀ hd0]
    constructor
    · intro h
      have : ((2 * (N % d) : ℕ) : ℝ) < (d : ℝ) := by push_cast; linarith
      exact_mod_cast this
    · intro h
      have : ((2 * (N % d) : ℕ) : ℝ) < (d : ℝ) := by exact_mod_cast h
      push_cast at this
      linarith
  have c2 : 1 / 2 < ((N % d : ℕ) : ℝ) / d ↔ d < 2 * (N % d) := by
    rw [lt_div_iff₀ hd0]
    constructor
    · intro h
      have : (d : ℝ) < ((2 * (N % d) : ℕ) : ℝ) := by push_cast; linarith
      exact_mod_cast this
    · intro h
      have : (d : ℝ) < ((2 * (N % d) : ℕ) : ℝ) := by exact_mod_cast h
      push_cast at this
      linarith
  have c3 : Even ((N / d : ℕ) : ℤ) ↔ (N / d) % 2 = 0 := by
    rw [Int.even_coe_nat, Nat.even_iff]
  rw [roundDiv_eq]
  unfold roundEven
  rw [hfl, hfr]
  simp only [c1, c2, c3]
  split_ifs <;> simp

/-- The value of a pair with a positive mantissa is positive. -/
theorem scaled_pos (f : ℕ × ℕ) (hf : 0 < f.1) : 0 < scaled f := by
  unfold scaled
  have : (0 : ℝ) < f.1 := by exact_mod_cast hf
  positivity

/-- An answer of `flDivAt` is the binary32 value of the quotient, and it is
positive. -/
theorem flDivAt_sound (n d s : ℕ) (f : ℕ × ℕ) (hd : 0 < d) (h : flDivAt n d s = some f) :
    round32 ((n : ℝ) / d) = scaled f ∧ 0 < f.1 := by
  have hd0 : (0 : ℝ) < d := by exact_mod_cast hd
  simp only [flDivAt, withNat_eq, Bool.cond_eq_ite, Bool.and_eq_true, Nat.ble_eq,
    Nat.blt_eq] at h
  split_ifs at h with hc
  obtain ⟨hlo, hhi⟩ := hc
  have hf : f = (roundDiv (n * 2 ^ s) d, s) := by
    simpa using h.symm
  have hs : (0 : ℝ) < 2 ^ s := by positivity
  have hlo' : ((2 : ℝ) ^ 23) * d ≤ n * 2 ^ s := by exact_mod_cast hlo
  have hhi' : (n : ℝ) * 2 ^ s < 2 ^ 24 * d := by exact_mod_cast hhi
  have hz : (2 : ℝ) ^ (-(s : ℤ)) = 1 / 2 ^ s := by
    rw [zpow_neg, zpow_natCast, one_div]
  have e1 : (2 : ℝ) ^ (-(s : ℤ) + 23) = 2 ^ 23 / 2 ^ s := by
    rw [zpow_add₀ (by norm_num), hz]
    norm_num
    ring
  have e2 : (2 : ℝ) ^ (-(s : ℤ) + 23 + 1) = 2 ^ 24 / 2 ^ s := by
    rw [zpow_add₀ (by norm_num), zpow_add₀ (by norm_num), hz]
    norm_num
    ring
  have h1 : (2 : ℝ) ^ (-(s : ℤ) + 23) ≤ (n : ℝ) / d := by
    rw [e1, div_le_div_iff₀ hs hd0]
    linarith
  have h2 : (n : ℝ) / d < (2 : ℝ) ^ (-(s : ℤ) + 23 + 1) := by
    rw [e2, div_lt_div_iff₀ hd0 hs]
    linarith
  have hq : (n : ℝ) / d / 2 ^ (-(s : ℤ)) = ((n * 2 ^ s : ℕ) : ℝ) / d := by
    rw [hz]
    push_cast
    field_simp
  have hn : 0 < n := by
    rcases Nat.eq_zero_or_pos n with h0 | h0
    · rw [h0] at hlo
      have : 0 < 2 ^ 23 * d := by positivity
      omega
    · exact h0
  have hx : (0 : ℝ) < (n : ℝ) / d := by
    have : (0 : ℝ) < n := by exact_mod_cast hn
    positivity
  have hval : round32 ((n : ℝ) / d) = scaled f := by
    rw [round32_of_exponent _ (-(s : ℤ)) h1 h2, hq, roundEven_div _ d hd, hf, hz]
    unfold scaled
    push_cast
    ring
  refine ⟨hval, ?_⟩
  have hp := round32_pos _ hx
  rw [hval] at hp
  unfold scaled at hp
  by_contra h0
  have : f.1 = 0 := by omega
  rw [this] at hp
  simp at hp

/-- An answer of `flDivNear` is the binary32 value of the quotient. -/
theorem flDivNear_sound (n d s0 : ℕ) (f : ℕ × ℕ) (hd : 0 < d)
    (h : flDivNear n d s0 = some f) : round32 ((n : ℝ) / d) = scaled f ∧ 0 < f.1 := by
  simp only [flDivNear, withNat_eq, Bool.cond_eq_ite] at h
  split_ifs at h
  · exact flDivAt_sound n d s0 f hd h
  · exact flDivAt_sound n d (s0 + 1) f hd h

/-- An answer of `mulF32` is the binary32 product. -/
theorem mulF32_sound (a b f : ℕ × ℕ) (h : mulF32 a b = some f) :
    round32 (scaled a * scaled b) = scaled f ∧ 0 < f.1 := by
  have := flDivNear_sound _ _ _ f (by positivity) h
  have hv : (((a.1 * b.1 : ℕ) : ℝ)) / ((2 ^ (a.2 + b.2) : ℕ) : ℝ) = scaled a * scaled b := by
    unfold scaled
    push_cast
    rw [pow_add]
    field_simp
  rw [hv] at this
  exact this

/-- An answer of `divF32` is the binary32 quotient. -/
theorem divF32_sound (a b f : ℕ × ℕ) (hb : 0 < b.1) (h : divF32 a b = some f) :
    round32 (scaled a / scaled b) = scaled f ∧ 0 < f.1 := by
  have := flDivNear_sound _ _ _ f (by positivity) h
  have hb0 : (0 : ℝ) < b.1 := by exact_mod_cast hb
  have hv : (((a.1 * 2 ^ b.2 : ℕ) : ℝ)) / ((b.1 * 2 ^ a.2 : ℕ) : ℝ) = scaled a / scaled b := by
    unfold scaled
    push_cast
    field_simp
    exact Or.inl (mul_comm _ _)
  rw [hv] at this
  exact this

/-- An answer of `ofNat32` is the number itself: the conversion is exact. -/
theorem ofNat32_sound (n : ℕ) (f : ℕ × ℕ) (h : ofNat32 n = some f) :
    scaled f = n ∧ 0 < f.1 := by
  simp only [ofNat32, withNat_eq] at h
  have hpos := (flDivAt_sound _ _ _ f (by norm_num) h).2
  refine ⟨?_, hpos⟩
  simp only [flDivAt, withNat_eq, Bool.cond_eq_ite, roundDiv_eq] at h
  split_ifs at h
  all_goals first
    | omega
    | (have hf : f = (n * 2 ^ (24 - bitLen n) / 1, 24 - bitLen n) := by simpa using h.symm
       rw [hf]
       unfold scaled
       simp only [Nat.div_one]
       push_cast
       field_simp)

/-- Squares compare as their nonnegative roots do, after a common positive factor
is taken away. -/
theorem lt_of_sq_mul_lt (a b E : ℝ) (hb : 0 ≤ b) (hE : 0 < E)
    (h : a ^ 2 * E < b ^ 2 * E) : a < b :=
  lt_of_pow_lt_pow_left₀ 2 hb (lt_of_mul_lt_mul_right h hE.le)

/-- The same for the weak order. -/
theorem le_of_sq_mul_le (a b E : ℝ) (hb : 0 ≤ b) (hE : 0 < E)
    (h : a ^ 2 * E ≤ b ^ 2 * E) : a ≤ b := by
  by_contra hcon
  push_neg at hcon
  have h1 : b ^ 2 < a ^ 2 := by gcongr
  have h2 : b ^ 2 * E < a ^ 2 * E := mul_lt_mul_of_pos_right h1 hE
  linarith

/-- The window of a square root: the four comparisons of `flSqrtAt`, read on
real numbers, place `y * q` in the binade of 24 digits and strictly between the
half-way points around `M`. -/
theorem sqrt_window (y q E M : ℝ) (hy : 0 < y) (hq : 0 < q) (hE : 0 < E) (hM : 1 ≤ M)
    (hlo : (2 ^ 23) ^ 2 * E ≤ y ^ 2 * E * q ^ 2)
    (hhi : y ^ 2 * E * q ^ 2 < (2 ^ 24) ^ 2 * E)
    (hn1 : (2 * M - 1) ^ 2 * E < y ^ 2 * E * (4 * q ^ 2))
    (hn2 : y ^ 2 * E * (4 * q ^ 2) < (2 * M + 1) ^ 2 * E) :
    2 ^ 23 ≤ y * q ∧ y * q < 2 ^ 24 ∧ 2 * M - 1 < 2 * (y * q) ∧ 2 * (y * q) < 2 * M + 1 := by
  have hyq : 0 < y * q := by positivity
  have e1 : y ^ 2 * E * q ^ 2 = (y * q) ^ 2 * E := by ring
  have e2 : y ^ 2 * E * (4 * q ^ 2) = (2 * (y * q)) ^ 2 * E := by ring
  rw [e1] at hlo hhi
  rw [e2] at hn1 hn2
  refine ⟨le_of_sq_mul_le _ _ E hyq.le hE hlo, lt_of_sq_mul_lt _ _ E (by positivity) hE hhi,
    lt_of_sq_mul_lt _ _ E (by positivity) hE hn1, lt_of_sq_mul_lt _ _ E (by linarith) hE hn2⟩

/-- A value strictly between the half-way points around `M / q` is less than half
a unit `1 / q` away from it. -/
theorem near_of_window (y q M : ℝ) (hq : 0 < q) (g3 : 2 * M - 1 < 2 * (y * q))
    (g4 : 2 * (y * q) < 2 * M + 1) :
    M * (1 / q) - 1 / q / 2 < y ∧ y < M * (1 / q) + 1 / q / 2 := by
  have e1 : M * (1 / q) - 1 / q / 2 = (2 * M - 1) / (2 * q) := by field_simp; ring
  have e2 : M * (1 / q) + 1 / q / 2 = (2 * M + 1) / (2 * q) := by field_simp; ring
  rw [e1, e2, div_lt_iff₀ (by positivity), lt_div_iff₀ (by positivity)]
  constructor <;> linarith

/-- Negative powers of two. -/
theorem zpow_neg_scale (s : ℕ) :
    (2 : ℝ) ^ (-(s : ℤ)) = 1 / 2 ^ s ∧ (2 : ℝ) ^ (-(s : ℤ) + 23) = 2 ^ 23 / 2 ^ s ∧
    (2 : ℝ) ^ (-(s : ℤ) + 23 + 1) = 2 ^ 24 / 2 ^ s := by
  have hz : (2 : ℝ) ^ (-(s : ℤ)) = 1 / 2 ^ s := by
    rw [zpow_neg, zpow_natCast, one_div]
  refine ⟨hz, ?_, ?_⟩
  · rw [zpow_add₀ (by norm_num), hz]
    norm_num
    ring
  · rw [zpow_add₀ (by norm_num), zpow_add₀ (by norm_num), hz]
    norm_num
    ring

/-- An answer of `flSqrtAt` is the binary32 value of the positive square root
of `K / 2 ^ e`. -/
theorem flSqrtAt_sound (K e M s : ℕ) (f : ℕ × ℕ) (h : flSqrtAt K e M s = some f)
    (y : ℝ) (hy : 0 < y) (hsq : y ^ 2 = (K : ℝ) / 2 ^ e) :
    round32 y = scaled f ∧ 0 < f.1 := by
  simp only [flSqrtAt, Bool.cond_eq_ite, Bool.and_eq_true, Nat.ble_eq, Nat.blt_eq] at h
  split_ifs at h with hc
  obtain ⟨⟨⟨⟨hM, hlo⟩, hhi⟩, hn1⟩, hn2⟩ := hc
  have hf : f = (M, s) := by simpa using h.symm
  have he : (0 : ℝ) < 2 ^ e := by positivity
  have hs : (0 : ℝ) < 2 ^ s := by positivity
  have hM' : (1 : ℝ) ≤ M := by exact_mod_cast hM
  have hK : (K : ℝ) = y ^ 2 * 2 ^ e := by rw [hsq]; field_simp
  have hpow : (2 : ℝ) ^ (2 * s) = (2 ^ s) ^ 2 := by rw [← pow_mul, mul_comm]
  have hpow2 : (2 : ℝ) ^ (2 * s + 2) = 4 * (2 ^ s) ^ 2 := by rw [pow_add, hpow]; ring
  have h46 : ((2 : ℝ) ^ 23) ^ 2 = 2 ^ 46 := by rw [← pow_mul]
  have h48 : ((2 : ℝ) ^ 24) ^ 2 = 2 ^ 48 := by rw [← pow_mul]
  have hlo' : ((2 : ℝ) ^ 23) ^ 2 * 2 ^ e ≤ y ^ 2 * 2 ^ e * (2 ^ s) ^ 2 := by
    rw [h46, ← hK, ← hpow]
    exact_mod_cast hlo
  have hhi' : y ^ 2 * 2 ^ e * (2 ^ s) ^ 2 < ((2 : ℝ) ^ 24) ^ 2 * 2 ^ e := by
    rw [h48, ← hK, ← hpow]
    exact_mod_cast hhi
  have hn1' : (2 * (M : ℝ) - 1) ^ 2 * 2 ^ e < y ^ 2 * 2 ^ e * (4 * (2 ^ s) ^ 2) := by
    rw [← hK, ← hpow2]
    have hc : (((2 * M - 1) ^ 2 * 2 ^ e : ℕ) : ℝ) < ((K * 2 ^ (2 * s + 2) : ℕ) : ℝ) := by
      exact_mod_cast hn1
    rw [Nat.cast_mul, Nat.cast_pow, Nat.cast_sub (by omega)] at hc
    push_cast at hc
    exact hc
  have hn2' : y ^ 2 * 2 ^ e * (4 * (2 ^ s) ^ 2) < (2 * (M : ℝ) + 1) ^ 2 * 2 ^ e := by
    rw [← hK, ← hpow2]
    exact_mod_cast hn2
  obtain ⟨g1, g2, g3, g4⟩ := sqrt_window y (2 ^ s) (2 ^ e) M hy hs he hM' hlo' hhi' hn1' hn2'
  obtain ⟨k1, k2⟩ := near_of_window y (2 ^ s) M hs g3 g4
  obtain ⟨hz, e1, e2⟩ := zpow_neg_scale s
  have hval : round32 y = (M : ℝ) * (1 / 2 ^ s) := by
    apply round32_eval y _ (M : ℤ) (-(s : ℤ))
    · rw [hz]; push_cast; ring
    · rw [e1, div_le_iff₀ hs]; exact g1
    · rw [e2, lt_div_iff₀ hs]; exact g2
    · rw [hz]; exact k1
    · rw [hz]; exact k2
  refine ⟨?_, ?_⟩
  · rw [hval, hf]
    unfold scaled
    ring
  · rw [hf]
    exact hM

/-- An answer of `powf52` is the binary32 value of `x ^ 2.5`. -/
theorem powf52_sound (x p : ℕ × ℕ) (hx : 0 < x.1) (h : powf52 x = some p) :
    powf (scaled x) 2.5 = scaled p ∧ 0 < p.1 := by
  have hx0 := scaled_pos x hx
  have hy : 0 < (scaled x) ^ (2.5 : ℝ) := Real.rpow_pos_of_pos hx0 _
  have hsq := rpow_five_halves_sq (scaled x) hx0.le
  have h5 : (scaled x) ^ 5 = ((x.1 ^ 5 : ℕ) : ℝ) / 2 ^ (5 * x.2) := by
    unfold scaled
    rw [div_pow, ← pow_mul, mul_comm x.2 5]
    push_cast
    rfl
  simp only [powf52, withNat_eq, Bool.cond_eq_ite, Nat.beq_eq] at h
  unfold powf
  split_ifs at h
  · simp only [flSqrt, withNat_eq] at h
    exact flSqrtAt_sound _ _ _ _ p h _ hy (by rw [hsq, h5])
  · simp only [flSqrt, withNat_eq] at h
    refine flSqrtAt_sound _ _ _ _ p h _ hy ?_
    rw [hsq, h5]
    push_cast
    rw [pow_succ]
    field_simp
    ring

/-- The value of `100.0f`. -/
theorem scaled_hundred : scaled (13107200, 17) = 100 := by
  unfold scaled
  norm_num

/-- The value of `1.3f`. -/
theorem scaled_c13 : scaled (10905190, 23) = round32 1.3 := by
  rw [round32_constants.1]
  unfold scaled
  norm_num

/-- The value of `18.5f`. -/
theorem scaled_c185 : scaled (9699328, 19) = round32 18.5 := by
  rw [round32_constants.2.1]
  unfold scaled
  norm_num

/-- The value of `24.9f`. -/
theorem scaled_c249 : scaled (13054771, 19) = round32 24.9 := by
  rw [round32_constants.2.2]
  unfold scaled
  norm_num

/-- An answer of `powHeight32` is the power of the binary32 formula. -/
theorem powHeight32_sound (h : ℕ) (p : ℕ × ℕ) (hp : powHeight32 h = some p) :
    powf (round32 ((h : ℝ) / 100)) 2.5 = scaled p ∧ 0 < p.1 := by
  simp only [powHeight32, Option.bind_eq_some] at hp
  obtain ⟨hf, h1, x, h2, h3⟩ := hp
  obtain ⟨e1, _⟩ := ofNat32_sound h hf h1
  obtain ⟨e2, hx⟩ := divF32_sound hf _ x (by norm_num) h2
  rw [e1, scaled_hundred] at e2
  rw [e2]
  exact powf52_sound x p hx h3

/-- An answer of `idealWeightAt` is the weight `T * p / 1.3f`. -/
theorem idealWeightAt_sound (T p m : ℕ × ℕ) (h : idealWeightAt T p = some m) :
    round32 (round32 (scaled T * scaled p) / round32 1.3) = scaled m ∧ 0 < m.1 := by
  simp only [idealWeightAt, Option.bind_eq_some] at h
  obtain ⟨a, h1, h2⟩ := h
  obtain ⟨e1, _⟩ := mulF32_sound T p a h1
  obtain ⟨e2, hm⟩ := divF32_sound a _ m (by norm_num) h2
  rw [← e1, scaled_c13] at e2
  exact ⟨e2, hm⟩

/-- An answer of `bmiAt` is the value `1.3f * w / p`. -/
theorem bmiAt_sound (p b : ℕ × ℕ) (w : ℕ) (hp : 0 < p.1) (h : bmiAt p w = some b) :
    round32 (round32 (round32 1.3 * (w : ℝ)) / scaled p) = scaled b ∧ 0 < b.1 := by
  simp only [bmiAt, Option.bind_eq_some] at h
  obtain ⟨wf, h1, t, h2, h3⟩ := h
  obtain ⟨e1, _⟩ := ofNat32_sound w wf h1
  obtain ⟨e2, _⟩ := mulF32_sound _ wf t h2
  obtain ⟨e3, hb⟩ := divF32_sound t p b hp h3
  rw [e1, scaled_c13] at e2
  rw [← e2] at e3
  exact ⟨e3, hb⟩

/-- An answer of `getBMI32Eval` is the value of `getBMI32`. -/
theorem getBMI32Eval_sound (h w : ℕ) (b : ℕ × ℕ) (hb : getBMI32Eval h w = some b) :
    getBMI32 h w = fin (scaled b) := by
  simp only [getBMI32Eval, Option.bind_eq_some] at hb
  obtain ⟨p, h1, h2⟩ := hb
  obtain ⟨e1, hp⟩ := powHeight32_sound h p h1
  obtain ⟨e2, _⟩ := bmiAt_sound p b w hp h2
  have hp0 := scaled_pos p hp
  unfold getBMI32 bmiFormula32 divFin32
  rw [e1, if_neg hp0.ne.symm, e2]

/-- An answer of `getIdealWeight32Eval` is the value of `getIdealWeight32`. -/
theorem getIdealWeight32Eval_sound (h : ℕ) (lo hi : ℕ × ℕ)
    (hr : getIdealWeight32Eval h = some (lo, hi)) :
    getIdealWeight32 h = (fin (scaled lo), fin (scaled hi)) := by
  simp only [getIdealWeight32Eval, Option.bind_eq_some] at hr
  obtain ⟨p, h1, lo', h2, hi', h3, h4⟩ := hr
  obtain ⟨e1, hp⟩ := powHeight32_sound h p h1
  obtain ⟨e2, _⟩ := idealWeightAt_sound _ p lo' h2
  obtain ⟨e3, _⟩ := idealWeightAt_sound _ p hi' h3
  simp only [Option.some.injEq, Prod.mk.injEq] at h4
  rw [getIdealWeight32_eq, e1, ← scaled_c185, ← scaled_c249, e2, e3, h4.1, h4.2]

/-! ## The reader -/

theorem dropLine_append (s tail : List Char) (hs : '\n' ∉ s) :
    dropLine (s ++ '\n' :: tail) = some tail := by
  induction s with
  | nil => simp [dropLine]
  | cons c cs ih =>
    have hc : c ≠ '\n' := fun h => hs (by simp [h])
    have hcs : '\n' ∉ cs := fun h => hs (by simp [h])
    simp [dropLine, hc, ih hcs]

/-- A failed extraction on a line that starts with a non-numeric token leaves
the stream inside that line, and `clear` with `ignoreLine` moves it to the next. -/
theorem extract_nonNumeric (line tail : List Char) (hline : startsNonNumeric line = true)
    (hnl : '\n' ∉ line) :
    ((⟨line ++ '\n' :: tail, false, false⟩ : Cin).extract).1.fail = true ∧
    ignoreLine ((⟨line ++ '\n' :: tail, false, false⟩ : Cin).extract).1.clear =
      ⟨tail, false, false⟩ := by
  unfold startsNonNumeric at hline
  have hsuf : line.dropWhile isSpace <:+ line := List.dropWhile_suffix isSpace
  cases hdw : line.dropWhile isSpace with
  | nil => simp [hdw] at hline
  | cons c t =>
    rw [hdw] at hline hsuf
    have hdrop : (line ++ '\n' :: tail).dropWhile isSpace = c :: (t ++ '\n' :: tail) := by
      rw [List.dropWhile_append, hdw]; simp
    have hmem : '\n' ∉ c :: t := fun h => hnl (hsuf.subset h)
    have ht : '\n' ∉ t := fun h => hmem (List.mem_cons_of_mem _ h)
    have hc : c ≠ '\n' := fun h => hmem (by simp [h])
    simp only [Bool.and_eq_true, Bool.not_eq_true', Bool.and_eq_false_imp] at hline
    obtain ⟨hcd, hsign⟩ := hline
    have hnlnd : isDigit '\n' = false := by decide
    by_cases hs : (c = '-' || c = '+') = true
    · have htd : (t ++ '\n' :: tail).takeWhile isDigit = [] := by
        cases t with
        | nil => simp [List.takeWhile, hnlnd]
        | cons d u =>
          have := hsign hs
          simp only at this
          simp [List.takeWhile, this]
      have hdd : (t ++ '\n' :: tail).dropWhile isDigit = t ++ '\n' :: tail := by
        have := List.takeWhile_append_dropWhile isDigit (t ++ '\n' :: tail)
        rw [htd] at this
        simpa using this
      simp [Cin.extract, Cin.good, hdrop, hs, htd, hdd, Cin.fail, Cin.clear, ignoreLine,
        Cin.ignore, dropLine_append t tail ht]
    · have htd : (c :: (t ++ '\n' :: tail)).takeWhile isDigit = [] := by
        simp [List.takeWhile, hcd]
      have hdd : (c :: (t ++ '\n' :: tail)).dropWhile isDigit = c :: (t ++ '\n' :: tail) := by
        simp [List.dropWhile, hcd]
      simp only [Bool.not_eq_true] at hs
      simp [Cin.extract, Cin.good, hdrop, hs, htd, hdd, Cin.fail, Cin.clear, ignoreLine,
        Cin.ignore, dropLine, hc, dropLine_append t tail ht]

/-- A digit is neither white space nor a sign. -/
theorem isDigit_not_space_nor_sign (c : Char) (hc : isDigit c = true) :
    isSpace c = false ∧ c ≠ '-' ∧ c ≠ '+' := by
  simp only [isDigit, Bool.and_eq_true, decide_eq_true_eq] at hc
  obtain ⟨h0, h9⟩ := hc
  have h0' : 48 ≤ c.toNat := h0
  refine ⟨?_, ?_, ?_⟩
  · simp only [isSpace, Bool.or_eq_false_iff, decide_eq_false_iff_not]
    refine ⟨⟨⟨⟨⟨?_, ?_⟩, ?_⟩, ?_⟩, ?_⟩, ?_⟩ <;>
      (intro h; rw [h] at h0'; revert h0'; decide)
  · intro h; rw [h] at h0'; revert h0'; decide
  · intro h; rw [h] at h0'; revert h0'; decide

/-- A successful extraction: leading white space, a run of digits of value at
most 65535, then something that is not a digit. -/
theorem extract_number (pre ds rest : List Char) (hpre : ∀ c ∈ pre, isSpace c = true)
    (hne : ds ≠ []) (hds : ∀ c ∈ ds, isDigit c = true)
    (hrest : ∀ c ∈ rest.head?, isDigit c = false) (hv : digitsVal ds ≤ 65535) :
    (⟨pre ++ (ds ++ rest), false, false⟩ : Cin).extract =
      (⟨rest, rest.isEmpty, false⟩, digitsVal ds) := by
  cases ds with
  | nil => exact absurd rfl hne
  | cons d ds' =>
    have hd : isDigit d = true := hds d (by simp)
    obtain ⟨hsp, hm, hp⟩ := isDigit_not_space_nor_sign d hd
    have hdrop : (pre ++ d :: (ds' ++ rest)).dropWhile isSpace = d :: (ds' ++ rest) := by
      rw [List.dropWhile_append_of_pos hpre]
      simp [List.dropWhile, hsp]
    have hrest' : rest.dropWhile isDigit = rest ∧ rest.takeWhile isDigit = [] := by
      cases rest with
      | nil => simp
      | cons r rs =>
        have : isDigit r = false := hrest r (by simp)
        simp [List.dropWhile, List.takeWhile, this]
    have htw : (d :: (ds' ++ rest)).takeWhile isDigit = d :: ds' := by
      have : d :: (ds' ++ rest) = (d :: ds') ++ rest := rfl
      rw [this, List.takeWhile_append_of_pos hds, hrest'.2]
      simp
    have hdw : (d :: (ds' ++ rest)).dropWhile isDigit = rest := by
      have : d :: (ds' ++ rest) = (d :: ds') ++ rest := rfl
      rw [this, List.dropWhile_append_of_pos hds, hrest'.1]
    have hv' : ¬ 65535 < digitsVal (d :: ds') := not_lt.mpr hv
    unfold Cin.extract
    simp only [Cin.good, Bool.not_false, Bool.and_self, if_true]
    rw [List.cons_append, hdrop]
    simp [hm, hp, htw, hdw, hv']

/-- One turn after another: `getHeight` on `lines` that start with non-numeric
tokens followed by a number. -/
theorem getHeight_linesThen (lines : List (List Char)) (pre ds rest : List Char)
    (hlines : ∀ line ∈ lines, startsNonNumeric line = true ∧ '\n' ∉ line)
    (hpre : ∀ c ∈ pre, isSpace c = true)
    (hne : ds ≠ []) (hds : ∀ c ∈ ds, isDigit c = true)
    (hrest : ∀ c ∈ rest.head?, isDigit c = false) (hv : digitsVal ds ≤ 65535)
    (extra : ℕ) (out : List String) :
    getHeight (lines.length + extra + 1)
        ⟨⟨linesThen lines (pre ++ (ds ++ rest)), false, false⟩, out⟩ =
      some (digitsVal ds,
        ⟨ignoreLine ⟨rest, rest.isEmpty, false⟩, out ++ retryTranscript lines.length⟩) := by
  induction lines generalizing out with
  | nil =>
    have hx := extract_number pre ds rest hpre hne hds hrest hv
    simp [getHeight, linesThen, World.print, hx, Cin.fail, retryTranscript]
  | cons line lines ih =>
    obtain ⟨hline, hnl⟩ := hlines line (by simp)
    obtain ⟨hf, hi⟩ := extract_nonNumeric line (linesThen lines (pre ++ (ds ++ rest))) hline hnl
    have ih' := ih (fun l hl => hlines l (List.mem_cons_of_mem _ hl))
      (out ++ [heightPrompt] ++ [retryMessage])
    have hlen : (line :: lines).length + extra + 1 = (lines.length + extra + 1) + 1 := by
      simp only [List.length_cons]; omega
    rw [hlen, getHeight]
    simp only [World.print, linesThen, hf, if_true, hi]
    rw [ih']
    simp [retryTranscript]

/-- The digit fold from an arbitrary start value. -/
theorem digitsVal_foldl (ds : List Char) (a : ℕ) :
    ds.foldl (fun n c => 10 * n + (c.toNat - '0'.toNat)) a =
      a * 10 ^ ds.length + digitsVal ds := by
  induction ds generalizing a with
  | nil => simp [digitsVal]
  | cons d ds ih =>
    simp only [digitsVal, List.foldl_cons, List.length_cons]
    rw [ih, ih (10 * 0 + _)]
    ring

/-- The character of a digit below ten is a decimal digit with that value. -/
theorem digitChar_val (d : ℕ) (hd : d < 10) :
    (Nat.digitChar d).toNat - '0'.toNat = d ∧ isDigit (Nat.digitChar d) = true := by
  interval_cases d <;> decide

/-- The value, shape and non-emptiness of the numeral built by `Nat.toDigitsCore`. -/
theorem toDigitsCore_val (fuel n : ℕ) (ds : List Char) (hf : n < fuel)
    (hds : ∀ c ∈ ds, isDigit c = true) :
    digitsVal (Nat.toDigitsCore 10 fuel n ds) = n * 10 ^ ds.length + digitsVal ds ∧
    (∀ c ∈ Nat.toDigitsCore 10 fuel n ds, isDigit c = true) ∧
    Nat.toDigitsCore 10 fuel n ds ≠ [] := by
  induction fuel generalizing n ds with
  | zero => omega
  | succ fuel ih =>
    obtain ⟨hval, hdig⟩ := digitChar_val (n % 10) (Nat.mod_lt _ (by decide))
    have hcons : digitsVal (Nat.digitChar (n % 10) :: ds) =
        (n % 10) * 10 ^ ds.length + digitsVal ds := by
      simp only [digitsVal, List.foldl_cons]
      rw [digitsVal_foldl, hval]
      simp [digitsVal]
    have hds2 : ∀ c ∈ Nat.digitChar (n % 10) :: ds, isDigit c = true := by
      intro c hc
      rcases List.mem_cons.mp hc with h | h
      · rw [h]; exact hdig
      · exact hds c h
    unfold Nat.toDigitsCore
    by_cases h0 : n / 10 = 0
    · simp only [h0, if_true]
      refine ⟨?_, hds2, by simp⟩
      rw [hcons]
      have : n % 10 = n := by omega
      rw [this]
    · simp only [h0, if_false]
      have hlt : n / 10 < fuel := by omega
      obtain ⟨h1, h2, h3⟩ := ih (n / 10) _ hlt hds2
      refine ⟨?_, h2, h3⟩
      rw [h1, hcons, List.length_cons, pow_succ]
      have hn : n * 10 ^ ds.length = (10 * (n / 10) + n % 10) * 10 ^ ds.length := by
        rw [Nat.div_add_mod]
      rw [hn]
      ring

/-- The function `digitsVal` reads the decimal numeral of `v` back as `v`. -/
theorem digitsVal_toDigits (v : ℕ) :
    digitsVal (Nat.toDigits 10 v) = v ∧ (∀ c ∈ Nat.toDigits 10 v, isDigit c = true) ∧
    Nat.toDigits 10 v ≠ [] := by
  have h := toDigitsCore_val (v + 1) v [] (by omega) (by simp)
  simpa [Nat.toDigits, digitsVal] using h

/-- The transcript of `k` failed turns holds `k` retry messages and `k + 1` prompts. -/
theorem retryTranscript_count (k : ℕ) :
    (retryTranscript k).count retryMessage = k ∧
    (retryTranscript k).count heightPrompt = k + 1 := by
  have hne : heightPrompt ≠ retryMessage := by decide
  induction k with
  | zero => simp [retryTranscript, List.count_cons, hne]
  | succ k ih =>
    obtain ⟨h1, h2⟩ := ih
    simp [retryTranscript, List.count_cons, hne, hne.symm, h1, h2]

/-- C10: on `k` lines that each start with a non-numeric token, followed by a line
that starts with a decimal integer `v` in 0..65535, `getHeight` returns `v` (with
any fuel above `k`) after exactly `k` retry messages and `k + 1` prompts. -/
theorem getHeight_retries (lines : List (List Char)) (ds rest : List Char) (v fuel : ℕ)
    (hlines : ∀ line ∈ lines, startsNonNumeric line = true ∧ '\n' ∉ line)
    (hne : ds ≠ []) (hds : ∀ c ∈ ds, isDigit c = true)
    (hrest : ∀ c ∈ rest.head?, isDigit c = false)
    (hval : digitsVal ds = v) (hv : v ≤ 65535) (hfuel : lines.length < fuel) :
    ∃ w : World,
      getHeight fuel ⟨⟨linesThen lines (ds ++ rest), false, false⟩, []⟩ = some (v, w) ∧
      w.cout.count retryMessage = lines.length ∧
      w.cout.count heightPrompt = lines.length + 1 ∧
      w.cout = retryTranscript lines.length := by
  obtain ⟨extra, rfl⟩ : ∃ extra, fuel = lines.length + extra + 1 :=
    ⟨fuel - lines.length - 1, by omega⟩
  subst hval
  have h := getHeight_linesThen lines [] ds rest hlines (by simp) hne hds hrest hv extra []
  rw [List.nil_append, List.nil_append] at h
  exact ⟨_, h, (retryTranscript_count _).1, (retryTranscript_count _).2, rfl⟩

/-- Witness of `getHeight_retries`: the input "abc\n170\n" gives one retry
message, two prompts and the value 170. -/
theorem getHeight_retries_witness :
    ∃ w : World,
      getHeight 2 (World.start "abc\n170\n") = some (170, w) ∧
      w.cout.count retryMessage = 1 ∧
      w.cout.count heightPrompt = 2 ∧
      w.cout = [heightPrompt, retryMessage, heightPrompt] :=
  getHeight_retries [['a', 'b', 'c']] ['1', '7', '0'] ['\n'] 170 2
    (by decide) (by decide) (by decide) (by decide) (by decide) (by decide) (by decide)

/-! ## What the readers return -/

/-- The value stored by an extraction is at most 65535. -/
theorem extract_le (s : Cin) : s.extract.2 ≤ 65535 := by
  unfold Cin.extract
  split_ifs
  · split
    · simp
    · dsimp only
      split_ifs <;> simp <;> omega
  · simp

/-- Whatever `getHeight` returns is at most 65535. -/
theorem getHeight_le (fuel : ℕ) (w w' : World) (x : ℕ)
    (h : getHeight fuel w = some (x, w')) : x ≤ 65535 := by
  induction fuel generalizing w with
  | zero => simp [getHeight] at h
  | succ fuel ih =>
    rw [getHeight] at h
    simp only at h
    split_ifs at h with hf
    · exact ih _ h
    · simp only [Option.some.injEq, Prod.mk.injEq] at h
      rw [← h.1]
      exact extract_le _

/-- Whatever `getWeight` returns is at most 65535. -/
theorem getWeight_le (fuel : ℕ) (w w' : World) (x : ℕ)
    (h : getWeight fuel w = some (x, w')) : x ≤ 65535 := by
  induction fuel generalizing w with
  | zero => simp [getWeight] at h
  | succ fuel ih =>
    rw [getWeight] at h
    simp only at h
    split_ifs at h with hf
    · exact ih _ h
    · simp only [Option.some.injEq, Prod.mk.injEq] at h
      rw [← h.1]
      exact extract_le _

/-- C11, as stated, fails: on the input "0\n" both readers return 0, which is
not a positive integer. -/
theorem readers_return_zero :
    getHeight 1 (World.start "0\n") = some (0, ⟨⟨[], false, false⟩, [heightPrompt]⟩) ∧
    getWeight 1 (World.start "0\n") = some (0, ⟨⟨[], false, false⟩, [weightPrompt]⟩) ∧
    ¬ (1 ≤ 0) := by
  decide

/-- C11, amended: every value that `getHeight` or `getWeight` returns is an integer
between 0 and 65535. -/
theorem readers_return_ushort (fuel : ℕ) (w w' : World) (x : ℕ)
    (h : getHeight fuel w = some (x, w') ∨ getWeight fuel w = some (x, w')) :
    0 ≤ x ∧ x ≤ 65535 := by
  rcases h with h | h
  · exact ⟨Nat.zero_le _, getHeight_le fuel w w' x h⟩
  · exact ⟨Nat.zero_le _, getWeight_le fuel w w' x h⟩

/-- Witness of `readers_return_ushort`: the value 0 read by `getHeight` from "0\n". -/
theorem readers_return_ushort_witness :
    getHeight 1 (World.start "0\n") = some (0, ⟨⟨[], false, false⟩, [heightPrompt]⟩) ∧
    (0 ≤ 0 ∧ 0 ≤ 65535) :=
  ⟨by decide,
    readers_return_ushort 1 (World.start "0\n") ⟨⟨[], false, false⟩, [heightPrompt]⟩ 0
      (Or.inl (by decide))⟩

/-! ## Numbers outside the range -/

/-- A failed extraction on a line whose first token is a run of digits of value
above 65535, with or without a sign: `clear` and `ignoreLine` then move the
stream to the next line. -/
theorem extract_outOfRange (pre sgn ds rest tail : List Char)
    (hpre : ∀ c ∈ pre, isSpace c = true)
    (hsgn : sgn = [] ∨ sgn = ['+'] ∨ sgn = ['-'])
    (hne : ds ≠ []) (hds : ∀ c ∈ ds, isDigit c = true)
    (hrest : ∀ c ∈ rest.head?, isDigit c = false) (hnl : '\n' ∉ rest)
    (hv : 65535 < digitsVal ds) :
    ((⟨pre ++ (sgn ++ (ds ++ (rest ++ '\n' :: tail))), false, false⟩ : Cin).extract).1.fail
      = true ∧
    ignoreLine
        ((⟨pre ++ (sgn ++ (ds ++ (rest ++ '\n' :: tail))), false, false⟩ : Cin).extract).1.clear
      = ⟨tail, false, false⟩ := by
  have hnd : isDigit '\n' = false := by decide
  have hrest' : ∀ c ∈ (rest ++ '\n' :: tail).head?, isDigit c = false := by
    cases rest with
    | nil => simp [hnd]
    | cons r rs => simpa using hrest
  have htw : (ds ++ (rest ++ '\n' :: tail)).takeWhile isDigit = ds := by
    rw [List.takeWhile_append_of_pos hds]
    cases hr : rest ++ '\n' :: tail with
    | nil => simp
    | cons r rs =>
      have : isDigit r = false := hrest' r (by simp [hr])
      simp [List.takeWhile, this]
  have hdw : (ds ++ (rest ++ '\n' :: tail)).dropWhile isDigit = rest ++ '\n' :: tail := by
    rw [List.dropWhile_append_of_pos hds]
    cases hr : rest ++ '\n' :: tail with
    | nil => simp
    | cons r rs =>
      have : isDigit r = false := hrest' r (by simp [hr])
      simp [List.dropWhile, this]
  cases ds with
  | nil => exact absurd rfl hne
  | cons d ds' =>
    have hd : isDigit d = true := hds d (by simp)
    obtain ⟨hsp, hm, hp⟩ := isDigit_not_space_nor_sign d hd
    have hplus : isSpace '+' = false := by decide
    have hminus : isSpace '-' = false := by decide
    have htw' : (d :: (ds' ++ (rest ++ '\n' :: tail))).takeWhile isDigit = d :: ds' := htw
    have hdw' : (d :: (ds' ++ (rest ++ '\n' :: tail))).dropWhile isDigit
        = rest ++ '\n' :: tail := hdw
    rcases hsgn with h | h | h
    · subst h
      have hdrop : (pre ++ ([] ++ (d :: ds' ++ (rest ++ '\n' :: tail)))).dropWhile isSpace
          = d :: (ds' ++ (rest ++ '\n' :: tail)) := by
        rw [List.dropWhile_append_of_pos hpre]
        simp [List.dropWhile, hsp]
      unfold Cin.extract
      simp only [Cin.good, Bool.not_false, Bool.and_self, if_true]
      rw [hdrop]
      simp [hm, hp, htw', hdw', hv, Cin.fail, Cin.clear, ignoreLine, Cin.ignore, Cin.good,
        dropLine_append rest tail hnl]
    · subst h
      have hdrop : (pre ++ (['+'] ++ (d :: ds' ++ (rest ++ '\n' :: tail)))).dropWhile isSpace
          = '+' :: (d :: ds' ++ (rest ++ '\n' :: tail)) := by
        rw [List.dropWhile_append_of_pos hpre]
        simp [List.dropWhile, hplus]
      unfold Cin.extract
      simp only [Cin.good, Bool.not_false, Bool.and_self, if_true]
      rw [hdrop]
      simp [htw', hdw', hd, hv, Cin.fail, Cin.clear, ignoreLine, Cin.ignore, Cin.good,
        dropLine_append rest tail hnl]
    · subst h
      have hdrop : (pre ++ (['-'] ++ (d :: ds' ++ (rest ++ '\n' :: tail)))).dropWhile isSpace
          = '-' :: (d :: ds' ++ (rest ++ '\n' :: tail)) := by
        rw [List.dropWhile_append_of_pos hpre]
        simp [List.dropWhile, hminus]
      unfold Cin.extract
      simp only [Cin.good, Bool.not_false, Bool.and_self, if_true]
      rw [hdrop]
      simp [htw', hdw', hd, hv, Cin.fail, Cin.clear, ignoreLine, Cin.ignore, Cin.good,
        dropLine_append rest tail hnl]

/-- C12, as stated, fails for negative integers: on the input "-5\n170\n" the
readers return 65531 from the first line, with no error message and no second
prompt. -/
theorem readers_accept_negative :
    getHeight 1 (World.start "-5\n170\n") =
      some (65531, ⟨⟨['1', '7', '0', '\n'], false, false⟩, [heightPrompt]⟩) ∧
    getWeight 1 (World.start "-5\n170\n") =
      some (65531, ⟨⟨['1', '7', '0', '\n'], false, false⟩, [weightPrompt]⟩) := by
  decide

/-- C12, amended: a line whose first token is a decimal integer above 65535, or a
negative integer below -65535, is rejected: the turn of the loop that meets it
discards the rest of the line, emits the error message and goes on (with a new
prompt) on the lines after it, so the value finally returned comes from a later
line. -/
theorem readers_reject_outOfRange (pre sgn ds rest tail : List Char) (fuel : ℕ)
    (out : List String)
    (hpre : ∀ c ∈ pre, isSpace c = true)
    (hsgn : sgn = [] ∨ sgn = ['+'] ∨ sgn = ['-'])
    (hne : ds ≠ []) (hds : ∀ c ∈ ds, isDigit c = true)
    (hrest : ∀ c ∈ rest.head?, isDigit c = false) (hnl : '\n' ∉ rest)
    (hv : 65535 < digitsVal ds) :
    getHeight (fuel + 1)
        ⟨⟨pre ++ (sgn ++ (ds ++ (rest ++ '\n' :: tail))), false, false⟩, out⟩ =
      getHeight fuel ⟨⟨tail, false, false⟩, out ++ [heightPrompt, retryMessage]⟩ ∧
    getWeight (fuel + 1)
        ⟨⟨pre ++ (sgn ++ (ds ++ (rest ++ '\n' :: tail))), false, false⟩, out⟩ =
      getWeight fuel ⟨⟨tail, false, false⟩, out ++ [weightPrompt, retryMessage]⟩ := by
  obtain ⟨hf, hi⟩ := extract_outOfRange pre sgn ds rest tail hpre hsgn hne hds hrest hnl hv
  constructor
  · rw [getHeight]
    simp only [World.print, hf, if_true, hi, List.append_assoc, List.singleton_append]
  · rw [getWeight]
    simp only [World.print, hf, if_true, hi, List.append_assoc, List.singleton_append]

/-- Witness of `readers_reject_outOfRange`: on "70000\n170\n" the first line is
rejected and 170 is returned from the second. -/
theorem readers_reject_outOfRange_witness :
    getHeight 2 (World.start "70000\n170\n") =
      some (170, ⟨⟨[], false, false⟩, [heightPrompt, retryMessage, heightPrompt]⟩) :=
  (readers_reject_outOfRange [] [] ['7', '0', '0', '0', '0'] [] ['1', '7', '0', '\n'] 1 []
    (by decide) (by decide) (by decide) (by decide) (by decide) (by decide)
    (by decide)).1.trans (by decide)

/-! ## Height, then weight -/

/-- One successful turn of `getWeight`. -/
theorem getWeight_number (pre ds rest : List Char) (fuel : ℕ) (out : List String)
    (hpre : ∀ c ∈ pre, isSpace c = true)
    (hne : ds ≠ []) (hds : ∀ c ∈ ds, isDigit c = true)
    (hrest : ∀ c ∈ rest.head?, isDigit c = false) (hv : digitsVal ds ≤ 65535) :
    getWeight (fuel + 1) ⟨⟨pre ++ (ds ++ rest), false, false⟩, out⟩ =
      some (digitsVal ds,
        ⟨ignoreLine ⟨rest, rest.isEmpty, false⟩, out ++ [weightPrompt]⟩) := by
  have hx := extract_number pre ds rest hpre hne hds hrest hv
  simp [getWeight, World.print, hx, Cin.fail]

/-- C13: when the first line is a valid integer `h` followed by arbitrary
characters and the second line starts with a valid integer `w`, `getHeight`
returns `h`, the rest of the first line is discarded, and the following
`getWeight` returns `w`; the output is the two prompts and no error message. -/
theorem height_then_weight (ds1 rest1 ds2 rest2 : List Char) (h w fuelH fuelW : ℕ)
    (hne1 : ds1 ≠ []) (hds1 : ∀ c ∈ ds1, isDigit c = true)
    (hrest1 : ∀ c ∈ rest1.head?, isDigit c = false) (hnl : '\n' ∉ rest1)
    (hh : digitsVal ds1 = h) (hh' : h ≤ 65535)
    (hne2 : ds2 ≠ []) (hds2 : ∀ c ∈ ds2, isDigit c = true)
    (hrest2 : ∀ c ∈ rest2.head?, isDigit c = false)
    (hw : digitsVal ds2 = w) (hw' : w ≤ 65535) :
    getHeight (fuelH + 1)
        ⟨⟨ds1 ++ (rest1 ++ '\n' :: (ds2 ++ rest2)), false, false⟩, []⟩ =
      some (h, ⟨⟨ds2 ++ rest2, false, false⟩, [heightPrompt]⟩) ∧
    getWeight (fuelW + 1) ⟨⟨ds2 ++ rest2, false, false⟩, [heightPrompt]⟩ =
      some (w, ⟨ignoreLine ⟨rest2, rest2.isEmpty, false⟩, [heightPrompt, weightPrompt]⟩) ∧
    retryMessage ∉ [heightPrompt, weightPrompt] := by
  subst hh hw
  have hnd : isDigit '\n' = false := by decide
  have hrest1' : ∀ c ∈ (rest1 ++ '\n' :: (ds2 ++ rest2)).head?, isDigit c = false := by
    cases rest1 with
    | nil => simp [hnd]
    | cons r rs => simpa using hrest1
  refine ⟨?_, ?_, by decide⟩
  · have hg := getHeight_linesThen [] [] ds1 (rest1 ++ '\n' :: (ds2 ++ rest2))
      (by simp) (by simp) hne1 hds1 hrest1' hh' fuelH []
    simp only [List.length_nil, Nat.zero_add, linesThen, List.nil_append, retryTranscript]
      at hg
    rw [hg]
    simp [ignoreLine, Cin.ignore, Cin.good, dropLine_append rest1 (ds2 ++ rest2) hnl]
  · have hg := getWeight_number [] ds2 rest2 fuelW [heightPrompt] (by simp) hne2 hds2
      hrest2 hw'
    simpa using hg

/-- Witness of `height_then_weight`: "170 abc\n72\n" gives height 170 and weight
72 with no error message. -/
theorem height_then_weight_witness :
    getHeight 1 (World.start "170 abc\n72\n") =
      some (170, ⟨⟨['7', '2', '\n'], false, false⟩, [heightPrompt]⟩) ∧
    getWeight 1 ⟨⟨['7', '2', '\n'], false, false⟩, [heightPrompt]⟩ =
      some (72, ⟨⟨[], false, false⟩, [heightPrompt, weightPrompt]⟩) ∧
    retryMessage ∉ [heightPrompt, weightPrompt] :=
  height_then_weight ['1', '7', '0'] [' ', 'a', 'b', 'c'] ['7', '2'] ['\n'] 170 72 0 0
    (by decide) (by decide) (by decide) (by decide) (by decide) (by decide)
    (by decide) (by decide) (by decide) (by decide) (by decide)

/-! ## Exhausted input -/

/-- On an empty buffer a turn of `getHeight` fails whatever the state bits are,
so no fuel is enough. -/
theorem getHeight_empty (fuel : ℕ) (eof failed : Bool) (out : List String) :
    getHeight fuel ⟨⟨[], eof, failed⟩, out⟩ = none := by
  induction fuel generalizing eof failed out with
  | zero => rfl
  | succ fuel ih =>
    rw [getHeight]
    cases eof <;> cases failed <;>
      simp [World.print, Cin.extract, Cin.good, Cin.fail, Cin.clear, ignoreLine, Cin.ignore,
        dropLine, ih]

/-- On a buffer of white space alone `getHeight` never returns. -/
theorem getHeight_blank (fuel : ℕ) (ws : List Char) (hws : ∀ c ∈ ws, isSpace c = true)
    (out : List String) :
    getHeight fuel ⟨⟨ws, false, false⟩, out⟩ = none := by
  cases fuel with
  | zero => rfl
  | succ fuel =>
    have hdrop : ws.dropWhile isSpace = [] := List.dropWhile_eq_nil_iff.mpr hws
    rw [getHeight]
    simp [World.print, Cin.extract, Cin.good, hdrop, Cin.fail, Cin.clear, ignoreLine,
      Cin.ignore, dropLine, getHeight_empty]

/-- On lines that all start with a non-numeric token and end the input (up to
trailing white space) `getHeight` never returns. -/
theorem getHeight_no_value (lines : List (List Char)) (ws : List Char) (fuel : ℕ)
    (out : List String)
    (hlines : ∀ line ∈ lines, startsNonNumeric line = true ∧ '\n' ∉ line)
    (hws : ∀ c ∈ ws, isSpace c = true) :
    getHeight fuel ⟨⟨linesThen lines ws, false, false⟩, out⟩ = none := by
  induction lines generalizing fuel out with
  | nil => exact getHeight_blank fuel ws hws out
  | cons line lines ih =>
    cases fuel with
    | zero => rfl
    | succ fuel =>
      obtain ⟨hline, hnl⟩ := hlines line (by simp)
      obtain ⟨hf, hi⟩ := extract_nonNumeric line (linesThen lines ws) hline hnl
      rw [getHeight]
      simp only [World.print, linesThen, hf, if_true, hi]
      exact ih _ _ (fun l hl => hlines l (List.mem_cons_of_mem _ hl))

/-- C14, as stated, fails: on the input "abc\n" the stream is exhausted before a
valid value is read and `getHeight` does not stop, whatever the number of turns. -/
theorem getHeight_loops_on_exhausted :
    ¬ ∃ fuel : ℕ, (getHeight fuel (World.start "abc\n")).isSome = true := by
  rintro ⟨fuel, h⟩
  have hn := getHeight_no_value [['a', 'b', 'c']] [] fuel [] (by decide) (by simp)
  have hs : World.start "abc\n" = ⟨⟨linesThen [['a', 'b', 'c']] [], false, false⟩, []⟩ := by
    decide
  rw [hs, hn] at h
  simp at h

/-- The extraction on a good stream with a character after the white space. -/
theorem extract_nonblank (b : List Char) (c : Char) (t : List Char)
    (h : b.dropWhile isSpace = c :: t) :
    (⟨b, false, false⟩ : Cin).extract =
      (⟨(signBody c t).dropWhile isDigit, ((signBody c t).dropWhile isDigit).isEmpty,
          ((signBody c t).takeWhile isDigit).isEmpty ||
            decide (65535 < digitsVal ((signBody c t).takeWhile isDigit))⟩,
        if ((signBody c t).takeWhile isDigit).isEmpty then 0
        else if 65535 < digitsVal ((signBody c t).takeWhile isDigit) then 65535
        else if c = '-' then (65536 - digitsVal ((signBody c t).takeWhile isDigit)) % 65536
        else digitsVal ((signBody c t).takeWhile isDigit)) := by
  unfold Cin.extract
  simp only [Cin.good, Bool.not_false, Bool.and_self, if_true]
  rw [h]
  simp only [signBody]
  split_ifs <;> simp_all

/-- No digit run without digits: the token is non-numeric exactly when the run
of digits after the sign is empty. -/
theorem startsNonNumeric_iff (b : List Char) (c : Char) (t : List Char)
    (h : b.dropWhile isSpace = c :: t) :
    startsNonNumeric b = ((signBody c t).takeWhile isDigit).isEmpty := by
  have hm : isDigit '-' = false := by decide
  have hp : isDigit '+' = false := by decide
  unfold startsNonNumeric
  rw [h]
  simp only [signBody]
  by_cases hs : (c = '-' || c = '+') = true
  · have hcd : isDigit c = false := by
      simp only [Bool.or_eq_true, decide_eq_true_eq] at hs
      rcases hs with hs | hs <;> rw [hs] <;> assumption
    rw [if_pos hs]
    cases t with
    | nil => simp [hcd, hs]
    | cons d u =>
      by_cases hd : isDigit d = true
      · simp [hcd, hs, hd, List.takeWhile]
      · simp only [Bool.not_eq_true] at hd
        simp [hcd, hs, hd, List.takeWhile]
  · rw [if_neg hs]
    simp only [Bool.not_eq_true] at hs
    by_cases hcd : isDigit c = true
    · simp [hcd, hs, List.takeWhile]
    · simp only [Bool.not_eq_true] at hcd
      simp [hcd, hs, List.takeWhile]

/-- An extraction fails exactly on a rejected start. -/
theorem extract_fail_eq (b : List Char) (c : Char) (t : List Char)
    (h : b.dropWhile isSpace = c :: t) :
    ((⟨b, false, false⟩ : Cin).extract).1.fail = startsRejected b := by
  rw [extract_nonblank b c t h]
  unfold startsRejected
  rw [startsNonNumeric_iff b c t h]
  unfold startsOutOfRange
  rw [h]
  simp only [Cin.fail]
  cases ((signBody c t).takeWhile isDigit).isEmpty <;> simp

/-- The digits at the head of a text do not change when a line end follows it. -/
theorem takeWhile_isDigit_line (xs tail : List Char) :
    (xs ++ '\n' :: tail).takeWhile isDigit = xs.takeWhile isDigit := by
  have hnd : isDigit '\n' = false := by decide
  induction xs with
  | nil => simp [List.takeWhile, hnd]
  | cons x xs ih =>
    by_cases hx : isDigit x = true
    · simp [List.takeWhile, hx, ih]
    · simp only [Bool.not_eq_true] at hx
      simp [List.takeWhile, hx]

/-- Dropping the digits at the head of a text stops at the latest at the line end. -/
theorem dropWhile_isDigit_line (xs tail : List Char) :
    (xs ++ '\n' :: tail).dropWhile isDigit = xs.dropWhile isDigit ++ '\n' :: tail := by
  have hnd : isDigit '\n' = false := by decide
  induction xs with
  | nil => simp [List.dropWhile, hnd]
  | cons x xs ih =>
    by_cases hx : isDigit x = true
    · simp [List.dropWhile, hx, ih]
    · simp only [Bool.not_eq_true] at hx
      simp [List.dropWhile, hx]

/-- The field after the sign is part of the text. -/
theorem signBody_suffix (c : Char) (t : List Char) : signBody c t <:+ c :: t := by
  unfold signBody
  split_ifs
  · exact List.suffix_cons c t
  · exact List.suffix_refl _

/-- What an extraction leaves unread is part of the text after the white space. -/
theorem rest_suffix (c : Char) (t : List Char) :
    (signBody c t).dropWhile isDigit <:+ c :: t :=
  (List.dropWhile_suffix isDigit).trans (signBody_suffix c t)

/-- A text without a line end has no next line. -/
theorem dropLine_none (s : List Char) (hs : '\n' ∉ s) : dropLine s = none := by
  induction s with
  | nil => rfl
  | cons c cs ih =>
    have hc : c ≠ '\n' := fun h => hs (by simp [h])
    have hcs : '\n' ∉ cs := fun h => hs (by simp [h])
    simp [dropLine, hc, ih hcs]

/-- The extraction on a line that is followed by a line end: the same as on the
line alone, with the rest of the input still to come. -/
theorem extract_line (line tail : List Char) (c : Char) (t : List Char)
    (h : line.dropWhile isSpace = c :: t) :
    (⟨line ++ '\n' :: tail, false, false⟩ : Cin).extract =
      (⟨(signBody c t).dropWhile isDigit ++ '\n' :: tail, false,
          ((⟨line, false, false⟩ : Cin).extract).1.failbit⟩,
        ((⟨line, false, false⟩ : Cin).extract).2) := by
  have hdrop : (line ++ '\n' :: tail).dropWhile isSpace = c :: (t ++ '\n' :: tail) := by
    rw [List.dropWhile_append, h]; simp
  have hbody : signBody c (t ++ '\n' :: tail) = signBody c t ++ '\n' :: tail := by
    unfold signBody
    split_ifs <;> simp
  rw [extract_nonblank _ c _ hdrop, extract_nonblank line c t h, hbody,
    takeWhile_isDigit_line, dropWhile_isDigit_line]
  simp

/-- A turn of `getHeight` on a rejected line that is followed by a line end goes
on with the next line after one prompt and one retry message. -/
theorem getHeight_rejected_line (line tail : List Char) (fuel : ℕ) (out : List String)
    (hrej : startsRejected line = true) (hnl : '\n' ∉ line.dropWhile isSpace) :
    getHeight (fuel + 1) ⟨⟨line ++ '\n' :: tail, false, false⟩, out⟩ =
      getHeight fuel ⟨⟨tail, false, false⟩, out ++ [heightPrompt, retryMessage]⟩ := by
  cases hdw : line.dropWhile isSpace with
  | nil =>
    simp [startsRejected, startsNonNumeric, startsOutOfRange, hdw] at hrej
  | cons c t =>
    rw [hdw] at hnl
    have hx := extract_line line tail c t hdw
    have hf := extract_fail_eq line c t hdw
    rw [hrej] at hf
    simp only [Cin.fail] at hf
    rw [hf] at hx
    have hrest : '\n' ∉ (signBody c t).dropWhile isDigit :=
      fun hm => hnl ((rest_suffix c t).subset hm)
    rw [getHeight]
    simp only [World.print, hx, Cin.fail, if_true, Cin.clear, ignoreLine, Cin.ignore,
      Cin.good, Bool.not_false, Bool.and_self, dropLine_append _ tail hrest,
      List.append_assoc, List.singleton_append]

/-- On a rejected line that ends the input `getHeight` never returns. -/
theorem getHeight_rejected_last (last : List Char) (fuel : ℕ) (out : List String)
    (hrej : startsRejected last = true) (hnl : '\n' ∉ last.dropWhile isSpace) :
    getHeight fuel ⟨⟨last, false, false⟩, out⟩ = none := by
  cases fuel with
  | zero => rfl
  | succ fuel =>
    cases hdw : last.dropWhile isSpace with
    | nil =>
      simp [startsRejected, startsNonNumeric, startsOutOfRange, hdw] at hrej
    | cons c t =>
      rw [hdw] at hnl
      have hf := extract_fail_eq last c t hdw
      rw [hrej, extract_nonblank last c t hdw] at hf
      simp only [Cin.fail] at hf
      have hrest : '\n' ∉ (signBody c t).dropWhile isDigit :=
        fun hm => hnl ((rest_suffix c t).subset hm)
      rw [getHeight]
      simp only [World.print, extract_nonblank last c t hdw, Cin.fail, hf, if_true, Cin.clear,
        ignoreLine, Cin.ignore, Cin.good, Bool.not_false, Bool.and_self,
        dropLine_none _ hrest]
      exact getHeight_empty fuel true false _

/-- Whether a line is rejected does not depend on the lines after it. -/
theorem startsRejected_line (line tail : List Char) (c : Char) (t : List Char)
    (h : line.dropWhile isSpace = c :: t) :
    startsRejected (line ++ '\n' :: tail) = startsRejected line := by
  have hdrop : (line ++ '\n' :: tail).dropWhile isSpace = c :: (t ++ '\n' :: tail) := by
    rw [List.dropWhile_append, h]; simp
  rw [← extract_fail_eq _ c _ hdrop, ← extract_fail_eq line c t h, extract_line line tail c t h]
  rfl

/-- The first character after the white space is not white space. -/
theorem head_not_space (b : List Char) (c : Char) (t : List Char)
    (h : b.dropWhile isSpace = c :: t) : isSpace c = false := by
  have := List.head?_dropWhile_not isSpace b
  rw [h] at this
  simpa using this

/-- A text with a line end splits at its first line end. -/
theorem split_first_line (s : List Char) (hs : '\n' ∈ s) :
    ∃ l tail, s = l ++ '\n' :: tail ∧ '\n' ∉ l := by
  induction s with
  | nil => simp at hs
  | cons x xs ih =>
    by_cases hx : x = '\n'
    · exact ⟨[], xs, by simp [hx], by simp⟩
    · have hxs : '\n' ∈ xs := by
        rcases List.mem_cons.mp hs with h | h
        · exact absurd h.symm hx
        · exact h
      obtain ⟨l, tail, hl, hnl⟩ := ih hxs
      refine ⟨x :: l, tail, by simp [hl], ?_⟩
      intro hm
      rcases List.mem_cons.mp hm with h | h
      · exact hx h.symm
      · exact hnl h

/-- A text that is not rejected starts, after white space and an optional sign,
with a run of digits of value at most 65535, and the extraction returns it. -/
theorem extract_accepted (b : List Char) (c : Char) (t : List Char)
    (h : b.dropWhile isSpace = c :: t) (hacc : startsRejected b = false) :
    ∃ pre sgn ds rest : List Char,
      b = pre ++ (sgn ++ (ds ++ rest)) ∧
      (∀ a ∈ pre, isSpace a = true) ∧ (sgn = [] ∨ sgn = ['+'] ∨ sgn = ['-']) ∧
      ds ≠ [] ∧ (∀ a ∈ ds, isDigit a = true) ∧ (∀ a ∈ rest.head?, isDigit a = false) ∧
      digitsVal ds ≤ 65535 ∧
      (⟨b, false, false⟩ : Cin).extract =
        (⟨rest, rest.isEmpty, false⟩,
          if sgn = ['-'] then (65536 - digitsVal ds) % 65536 else digitsVal ds) := by
  have hf := extract_fail_eq b c t h
  rw [hacc, extract_nonblank b c t h] at hf
  simp only [Cin.fail, Bool.or_eq_false_iff, decide_eq_false_iff_not, not_lt] at hf
  obtain ⟨hne, hv⟩ := hf
  have hb : b = b.takeWhile isSpace ++ c :: t := by
    rw [← h, List.takeWhile_append_dropWhile]
  have hbody : signBody c t =
      (signBody c t).takeWhile isDigit ++ (signBody c t).dropWhile isDigit :=
    (List.takeWhile_append_dropWhile isDigit (signBody c t)).symm
  have hrest : ∀ a ∈ ((signBody c t).dropWhile isDigit).head?, isDigit a = false := by
    intro a ha
    have := List.head?_dropWhile_not isDigit (signBody c t)
    rw [Option.mem_def] at ha
    rw [ha] at this
    simpa using this
  have hds : ∀ a ∈ (signBody c t).takeWhile isDigit, isDigit a = true :=
    fun a ha => List.mem_takeWhile_imp ha
  have hne' : (signBody c t).takeWhile isDigit ≠ [] := by
    intro hnil
    rw [hnil] at hne
    simp at hne
  have hx := extract_nonblank b c t h
  rw [hne, if_neg (by simp), if_neg (not_lt.mpr hv)] at hx
  simp only [Bool.false_or, decide_eq_false (not_lt.mpr hv)] at hx
  by_cases hm : c = '-'
  · refine ⟨b.takeWhile isSpace, ['-'], _, _, ?_, fun a ha => List.mem_takeWhile_imp ha,
      Or.inr (Or.inr rfl), hne', hds, hrest, hv, ?_⟩
    · have hsb : signBody c t = t := by simp [signBody, hm]
      rw [hsb] at hbody ⊢
      rw [← hbody]
      rw [hm] at hb
      simpa using hb
    · rw [hx, if_pos hm, if_pos rfl]
  · by_cases hp : c = '+'
    · refine ⟨b.takeWhile isSpace, ['+'], _, _, ?_, fun a ha => List.mem_takeWhile_imp ha,
        Or.inr (Or.inl rfl), hne', hds, hrest, hv, ?_⟩
      · have hsb : signBody c t = t := by simp [signBody, hp]
        rw [hsb] at hbody ⊢
        rw [← hbody]
        rw [hp] at hb
        simpa using hb
      · rw [hx, if_neg hm, if_neg (by decide)]
    · refine ⟨b.takeWhile isSpace, [], _, _, ?_, fun a ha => List.mem_takeWhile_imp ha,
        Or.inl rfl, hne', hds, hrest, hv, ?_⟩
      · have hsb : signBody c t = c :: t := by simp [signBody, hm, hp]
        rw [hsb] at hbody ⊢
        rw [List.nil_append, ← hbody]
        exact hb
      · rw [hx, if_neg hm, if_neg (by decide)]

/-- C14, amended: every input text falls in one of two cases. Either it is `k`
rejected lines (first token non-numeric or above 65535) followed by an accepted
number, and `getHeight` returns that number within `k + 1` turns of the loop,
after `k` retry messages; or the input ends before any accepted number (after
the rejected lines there is only white space, or a rejected token with no line
break after it), and `getHeight` does not return, whatever the number of turns. -/
theorem getHeight_returns_or_loops (buf : List Char) :
    (∃ (lines : List (List Char)) (pre sgn ds rest : List Char),
      buf = linesThen lines (pre ++ (sgn ++ (ds ++ rest))) ∧
      (∀ line ∈ lines, startsRejected line = true ∧ '\n' ∉ line.dropWhile isSpace) ∧
      (∀ a ∈ pre, isSpace a = true) ∧ (sgn = [] ∨ sgn = ['+'] ∨ sgn = ['-']) ∧
      ds ≠ [] ∧ (∀ a ∈ ds, isDigit a = true) ∧ (∀ a ∈ rest.head?, isDigit a = false) ∧
      digitsVal ds ≤ 65535 ∧
      ∀ (extra : ℕ) (out : List String), ∃ c : Cin,
        getHeight (lines.length + extra + 1) ⟨⟨buf, false, false⟩, out⟩ =
          some (if sgn = ['-'] then (65536 - digitsVal ds) % 65536 else digitsVal ds,
            ⟨c, out ++ retryTranscript lines.length⟩)) ∨
    (∃ (lines : List (List Char)) (last : List Char),
      buf = linesThen lines last ∧
      (∀ line ∈ lines, startsRejected line = true ∧ '\n' ∉ line.dropWhile isSpace) ∧
      ((∀ a ∈ last, isSpace a = true) ∨
        (startsRejected last = true ∧ '\n' ∉ last.dropWhile isSpace)) ∧
      ∀ (fuel : ℕ) (out : List String),
        getHeight fuel ⟨⟨buf, false, false⟩, out⟩ = none) := by
  generalize hn : buf.length = n
  induction n using Nat.strong_induction_on generalizing buf with
  | _ n ih =>
    cases hdw : buf.dropWhile isSpace with
    | nil =>
      have hws : ∀ a ∈ buf, isSpace a = true := List.dropWhile_eq_nil_iff.mp hdw
      exact Or.inr ⟨[], buf, rfl, by simp, Or.inl hws,
        fun fuel out => getHeight_blank fuel buf hws out⟩
    | cons c t =>
      by_cases hrej : startsRejected buf = true
      · by_cases hnl : '\n' ∈ c :: t
        · obtain ⟨l, tail, hl, hnl'⟩ := split_first_line (c :: t) hnl
          have hcs : isSpace c = false := head_not_space buf c t hdw
          have hlne : ∃ l', l = c :: l' := by
            cases l with
            | nil =>
              simp only [List.nil_append, List.cons.injEq] at hl
              rw [hl.1] at hcs
              exact absurd hcs (by decide)
            | cons x l' =>
              simp only [List.cons_append, List.cons.injEq] at hl
              exact ⟨l', by rw [hl.1]⟩
          obtain ⟨l', hl'⟩ := hlne
          have hpre : ∀ a ∈ buf.takeWhile isSpace, isSpace a = true :=
            fun a ha => List.mem_takeWhile_imp ha
          have hbuf : buf = (buf.takeWhile isSpace ++ l) ++ '\n' :: tail := by
            rw [List.append_assoc, ← hl, ← hdw, List.takeWhile_append_dropWhile]
          have hline : (buf.takeWhile isSpace ++ l).dropWhile isSpace = c :: l' := by
            rw [List.dropWhile_append_of_pos hpre, hl']
            simp [List.dropWhile, hcs]
          have hrejl : startsRejected (buf.takeWhile isSpace ++ l) = true := by
            rw [← startsRejected_line _ tail c l' hline, ← hbuf]
            exact hrej
          have hnll : '\n' ∉ (buf.takeWhile isSpace ++ l).dropWhile isSpace := by
            rw [hline, ← hl']
            exact hnl'
          have hlen : tail.length < n := by
            rw [← hn]
            conv_rhs => rw [hbuf]
            simp only [List.length_append, List.length_cons]
            omega
          have hturn : ∀ (fuel : ℕ) (out : List String),
              getHeight (fuel + 1) ⟨⟨buf, false, false⟩, out⟩ =
                getHeight fuel ⟨⟨tail, false, false⟩, out ++ [heightPrompt, retryMessage]⟩ := by
            intro fuel out
            have := getHeight_rejected_line (buf.takeWhile isSpace ++ l) tail fuel out hrejl hnll
            rw [← hbuf] at this
            exact this
          rcases ih tail.length hlen tail rfl with hA | hB
          · obtain ⟨lines, pre, sgn, ds, rest, htail, hlines, h1, h2, h3, h4, h5, h6, hret⟩ := hA
            refine Or.inl ⟨(buf.takeWhile isSpace ++ l) :: lines, pre, sgn, ds, rest, ?_, ?_,
              h1, h2, h3, h4, h5, h6, ?_⟩
            · rw [linesThen, ← htail]
              exact hbuf
            · intro line hmem
              rcases List.mem_cons.mp hmem with h | h
              · rw [h]; exact ⟨hrejl, hnll⟩
              · exact hlines line h
            · intro extra out
              obtain ⟨c', hc'⟩ := hret extra (out ++ [heightPrompt, retryMessage])
              refine ⟨c', ?_⟩
              have hfuel : ((buf.takeWhile isSpace ++ l) :: lines).length + extra + 1 =
                  (lines.length + extra + 1) + 1 := by
                simp only [List.length_cons]; omega
              rw [hfuel, hturn, hc']
              simp [retryTranscript]
          · obtain ⟨lines, last, htail, hlines, hlast, hnone⟩ := hB
            refine Or.inr ⟨(buf.takeWhile isSpace ++ l) :: lines, last, ?_, ?_, hlast, ?_⟩
            · rw [linesThen, ← htail]
              exact hbuf
            · intro line hmem
              rcases List.mem_cons.mp hmem with h | h
              · rw [h]; exact ⟨hrejl, hnll⟩
              · exact hlines line h
            · intro fuel out
              cases fuel with
              | zero => rfl
              | succ fuel => rw [hturn]; exact hnone _ _
        · have hnl' : '\n' ∉ buf.dropWhile isSpace := by rw [hdw]; exact hnl
          exact Or.inr ⟨[], buf, rfl, by simp, Or.inr ⟨hrej, hnl'⟩,
            fun fuel out => getHeight_rejected_last buf fuel out hrej hnl'⟩
      · simp only [Bool.not_eq_true] at hrej
        obtain ⟨pre, sgn, ds, rest, hb, h1, h2, h3, h4, h5, h6, hx⟩ :=
          extract_accepted buf c t hdw hrej
        refine Or.inl ⟨[], pre, sgn, ds, rest, hb, by simp, h1, h2, h3, h4, h5, h6, ?_⟩
        intro extra out
        refine ⟨ignoreLine ⟨rest, rest.isEmpty, false⟩, ?_⟩
        simp only [List.length_nil, Nat.zero_add]
        rw [getHeight]
        simp [World.print, hx, Cin.fail, retryTranscript]

/-! ## The table of the source header -/

/-- C15: the code at values where the header table and `getSituation` part.
Height 175 and weight 49 give a BMI between 15.5 and 17.5 (the header row
'Peso insuficiente'), labelled 'Severe thinness (severe anorexia)'; 17.2 (same
header row) is labelled 'Slight underweight'; 50 (header row '>40 Obesidad tipo
III') is labelled 'Hypermorbid Obesity type IV'. -/
theorem getSituation_departs_from_header :
    (∃ b : ℝ, getBMI 175 49 = fin b ∧ 15.5 ≤ b ∧ b < 17.5 ∧
      getSituation (getBMI 175 49) = "Severe thinness (severe anorexia)") ∧
    getSituation (fin (17.2 : ℝ)) = "Slight underweight" ∧
    getSituation (fin (50 : ℝ)) = "Hypermorbid Obesity type IV" := by
  obtain ⟨hlo, hhi⟩ := pow_height_175
  have hpos := pow_height_pos 175 (by decide)
  have hb : getBMI 175 49 =
      fin (1.3 * ((49 : ℕ) : ℝ) / (((175 : ℕ) : ℝ) / 100) ^ (2.5 : ℝ)) := by
    rw [getBMI, bmiFormula_of_pos 175 _ (by decide)]
  have h1 : 15.5 ≤ 1.3 * ((49 : ℕ) : ℝ) / (((175 : ℕ) : ℝ) / 100) ^ (2.5 : ℝ) := by
    rw [le_div_iff₀ hpos]
    norm_num at hlo hhi ⊢
    linarith
  have h2 : 1.3 * ((49 : ℕ) : ℝ) / (((175 : ℕ) : ℝ) / 100) ^ (2.5 : ℝ) < 16 := by
    rw [div_lt_iff₀ hpos]
    norm_num at hlo hhi ⊢
    linarith
  refine ⟨⟨_, hb, h1, by linarith, ?_⟩, ?_, ?_⟩
  · rw [hb, getSituation_fin, if_pos h2]
  · rw [getSituation_fin]
    norm_num
  · rw [getSituation_fin]
    norm_num

/-! ## The division of `getBMI` -/

/-- C16: the divisor `(h / 100) ^ 2.5` of `getBMI` is strictly positive exactly
for heights `h >= 1`, and exactly then the quotient is a finite value; for
height 0 the divisor is 0 and the unguarded division gives NaN (weight 0) or
plus infinity. -/
theorem getBMI_division (h w : ℕ) :
    (0 < ((h : ℝ) / 100) ^ (2.5 : ℝ) ↔ 1 ≤ h) ∧
    ((∃ b : ℝ, getBMI h w = fin b) ↔ 1 ≤ h) ∧
    (((0 : ℕ) : ℝ) / 100) ^ (2.5 : ℝ) = 0 ∧
    getBMI 0 w = (if w = 0 then nan else posInf) := by
  have hz : (((0 : ℕ) : ℝ) / 100) ^ (2.5 : ℝ) = 0 := by
    rw [Nat.cast_zero, zero_div]
    exact Real.zero_rpow (by norm_num)
  have h0 : getBMI 0 w = (if w = 0 then nan else posInf) := by
    unfold getBMI bmiFormula divFin
    rw [hz, if_pos rfl]
    by_cases hw : w = 0
    · simp [hw]
    · have hw' : (0 : ℝ) < w := by exact_mod_cast Nat.pos_of_ne_zero hw
      have h13 : (1.3 : ℝ) * w ≠ 0 := by positivity
      have h13' : (0 : ℝ) < 1.3 * w := by positivity
      rw [if_neg h13, if_pos h13', if_neg hw]
  refine ⟨?_, ?_, hz, h0⟩
  · constructor
    · intro hp
      by_contra hc
      have : h = 0 := by omega
      subst this
      rw [hz] at hp
      exact lt_irrefl _ hp
    · intro hh
      exact pow_height_pos h hh
  · constructor
    · rintro ⟨b, hb⟩
      by_contra hc
      have : h = 0 := by omega
      subst this
      rw [h0] at hb
      split_ifs at hb
    · intro hh
      exact ⟨_, by rw [getBMI, bmiFormula_of_pos h _ hh]⟩

/-! ## One reader, two prompts -/

/-- The function `getHeight` is the reader of the specification with the height prompt. -/
theorem getHeight_eq_reader (fuel : ℕ) (w : World) :
    getHeight fuel w = readPositiveInteger heightPrompt fuel w := by
  induction fuel generalizing w with
  | zero => rfl
  | succ fuel ih =>
    rw [getHeight, readPositiveInteger]
    simp only [World.print]
    split_ifs
    · exact ih _
    · rfl

/-- The function `getWeight` is the reader of the specification with the weight prompt. -/
theorem getWeight_eq_reader (fuel : ℕ) (w : World) :
    getWeight fuel w = readPositiveInteger weightPrompt fuel w := by
  induction fuel generalizing w with
  | zero => rfl
  | succ fuel ih =>
    rw [getWeight, readPositiveInteger]
    simp only [World.print]
    split_ifs
    · exact ih _
    · rfl

/-- The reader with the weight prompt does what the reader with the height prompt
does, with the weight prompt in the place of the height prompt. -/
theorem reader_prompt_swap (fuel : ℕ) (c : Cin) (outH outW : List String)
    (hout : outW = outH.map asWeightPrompt) :
    observeAsWeight (readPositiveInteger heightPrompt fuel ⟨c, outH⟩) =
      observe (readPositiveInteger weightPrompt fuel ⟨c, outW⟩) := by
  have hp : asWeightPrompt heightPrompt = weightPrompt := by decide
  have hr : asWeightPrompt retryMessage = retryMessage := by decide
  induction fuel generalizing c outH outW with
  | zero => rfl
  | succ fuel ih =>
    rw [readPositiveInteger, readPositiveInteger]
    simp only [World.print]
    split_ifs
    · apply ih
      simp [hout, hp, hr]
    · simp [observeAsWeight, observe, hout, hp]

/-- C17: `getHeight` and `getWeight` are one reader with two prompts: each is the
reader `readPositiveInteger` at its prompt, and on every input and with every
fuel both return (or fail to return) alike, with the same value, the same input
left unread and the same outputs but for the weight prompt in the place of the
height prompt. -/
theorem getHeight_getWeight_same_reader :
    (∀ (fuel : ℕ) (w : World), getHeight fuel w = readPositiveInteger heightPrompt fuel w) ∧
    (∀ (fuel : ℕ) (w : World), getWeight fuel w = readPositiveInteger weightPrompt fuel w) ∧
    (∀ (fuel : ℕ) (c : Cin),
      observeAsWeight (getHeight fuel ⟨c, []⟩) = observe (getWeight fuel ⟨c, []⟩)) := by
  refine ⟨getHeight_eq_reader, getWeight_eq_reader, ?_⟩
  intro fuel c
  rw [getHeight_eq_reader, getWeight_eq_reader]
  exact reader_prompt_swap fuel c [] [] rfl

/-! ## The ideal range and the classifier, in binary32 -/

/-- A natural number that is not below `M / 2 ^ s` is not below `ceilScaled`. -/
theorem ceilScaled_le (m : ℕ × ℕ) (w : ℕ) (h : scaled m ≤ w) : ceilScaled m ≤ w := by
  have hq : 0 < 2 ^ m.2 := by positivity
  have hq0 : (0 : ℝ) < 2 ^ m.2 := by positivity
  unfold scaled at h
  rw [div_le_iff₀ hq0] at h
  have hle : m.1 ≤ w * 2 ^ m.2 := by exact_mod_cast h
  unfold ceilScaled
  have : (m.1 + 2 ^ m.2 - 1) / 2 ^ m.2 < w + 1 := by
    rw [Nat.div_lt_iff_lt_mul hq, Nat.add_mul, Nat.one_mul]
    omega
  omega

/-- The number `ceilScaled` of a pair with a positive mantissa is positive. -/
theorem ceilScaled_pos (m : ℕ × ℕ) (hm : 0 < m.1) : 0 < ceilScaled m := by
  have hq : 0 < 2 ^ m.2 := by positivity
  unfold ceilScaled
  apply Nat.div_pos _ hq
  omega

/-- The binary32 BMI does not decrease with the weight. -/
theorem bmi32_mono (P v w : ℝ) (hP : 0 < P) (hv : 0 < v) (hvw : v ≤ w) :
    round32 (round32 (round32 1.3 * v) / P) ≤ round32 (round32 (round32 1.3 * w) / P) := by
  have hc : 0 < round32 1.3 := round32_pos _ (by norm_num)
  have h1 : round32 (round32 1.3 * v) ≤ round32 (round32 1.3 * w) :=
    round32_mono _ _ (by positivity) (by gcongr)
  have h0 : 0 < round32 (round32 1.3 * v) := round32_pos _ (by positivity)
  exact round32_mono _ _ (by positivity) (by gcongr)

/-- A height that passes `rowCheck`: every integer weight that is not below the
minimum ideal weight has a binary32 BMI of at least 18.5. -/
theorem rowCheck_sound (h : ℕ) (hc : rowCheck h = true) :
    ∃ m : ℝ, (getIdealWeight32 h).1 = fin m ∧
      ∀ w : ℕ, m ≤ w → ∃ b : ℝ, getBMI32 h w = fin b ∧ 18.5 ≤ b := by
  unfold rowCheck at hc
  split at hc
  · exact absurd hc (by simp)
  · rename_i p hp
    split at hc
    · exact absurd hc (by simp)
    · rename_i m hm
      split at hc
      · exact absurd hc (by simp)
      · rename_i b hb
        obtain ⟨e1, hp1⟩ := powHeight32_sound h p hp
        obtain ⟨e2, hm1⟩ := idealWeightAt_sound _ p m hm
        obtain ⟨e3, _⟩ := bmiAt_sound p b (ceilScaled m) hp1 hb
        have hP := scaled_pos p hp1
        rw [scaled_c185] at e2
        refine ⟨scaled m, ?_, ?_⟩
        · rw [getIdealWeight32_eq, e1, e2]
        · intro w hw
          have hw0 : ceilScaled m ≤ w := ceilScaled_le m w hw
          have hpos : (0 : ℝ) < (ceilScaled m : ℕ) := by
            exact_mod_cast ceilScaled_pos m hm1
          have hle : ((ceilScaled m : ℕ) : ℝ) ≤ (w : ℝ) := by exact_mod_cast hw0
          have hmono := bmi32_mono (scaled p) _ _ hP hpos hle
          rw [e3] at hmono
          refine ⟨_, ?_, le_trans ?_ hmono⟩
          · unfold getBMI32 bmiFormula32 divFin32
            rw [e1, if_neg hP.ne.symm]
          · have hb2 : 37 * 2 ^ b.2 ≤ 2 * b.1 := Nat.le_of_ble_eq_true hc
            have hb3 : (37 : ℝ) * 2 ^ b.2 ≤ 2 * b.1 := by exact_mod_cast hb2
            unfold scaled
            rw [le_div_iff₀ (by positivity)]
            norm_num
            linarith

/-- The check of all heights up to `n` is the check of each of them. -/
theorem checkUpTo_row (n h : ℕ) (hc : checkUpTo n = true) (hh : 0 < h) (hn : h ≤ n) :
    rowCheck h = true := by
  induction n with
  | zero => omega
  | succ n ih =>
    simp only [checkUpTo, Bool.and_eq_true] at hc
    rcases Nat.lt_or_ge h (n + 1) with hlt | hge
    · exact ih hc.2 (by omega)
    · have : h = n + 1 := by omega
      rw [this]
      exact hc.1

/-- Every height from 1 to 2919 passes the check. -/
theorem checkUpTo_2919 : checkUpTo 2919 = true := by decide!

/-- From height 2920 on the minimum ideal weight is above 65535, the largest
value of an `unsigned short`. -/
theorem minWeight32_large (h : ℕ) (hh : 2920 ≤ h) :
    ∃ m : ℝ, (getIdealWeight32 h).1 = fin m ∧ 65535 < m := by
  have hh0 : (2920 : ℝ) ≤ h := by exact_mod_cast hh
  have hu : (0 : ℝ) < 1 - 2 ^ (-24 : ℤ) := by norm_num
  set A : ℝ := 1 - 2 ^ (-24 : ℤ) with hA
  have hx0 : (0 : ℝ) < (h : ℝ) / 100 := by positivity
  have hx := (round32_near _ hx0).1
  have hxpos := round32_pos _ hx0
  set x := round32 ((h : ℝ) / 100) with hxdef
  have hxlo : 29.2 * A ≤ x := by
    have : (29.2 : ℝ) ≤ (h : ℝ) / 100 := by rw [le_div_iff₀ (by norm_num)]; linarith
    calc 29.2 * A ≤ (h : ℝ) / 100 * A := by gcongr
      _ ≤ x := hx
  have hbase : (0 : ℝ) < 29.2 * A := by positivity
  have hpowlo : (4607 : ℝ) ≤ x ^ (2.5 : ℝ) := by
    have h1 : (29.2 * A) ^ (2.5 : ℝ) ≤ x ^ (2.5 : ℝ) :=
      Real.rpow_le_rpow hbase.le hxlo (by norm_num)
    have h2 : (4607 : ℝ) ≤ (29.2 * A) ^ (2.5 : ℝ) := by
      have hpos : 0 < (29.2 * A) ^ (2.5 : ℝ) := Real.rpow_pos_of_pos hbase _
      have hsq := rpow_five_halves_sq (29.2 * A) hbase.le
      apply le_of_sq_mul_le _ _ 1 hpos.le (by norm_num)
      rw [hsq, hA]
      norm_num
    linarith
  have hpowpos : 0 < x ^ (2.5 : ℝ) := Real.rpow_pos_of_pos hxpos _
  have hP := (round32_near _ hpowpos).1
  have hPpos := round32_pos _ hpowpos
  have hPlo : 4607 * A ≤ round32 (x ^ (2.5 : ℝ)) :=
    calc 4607 * A ≤ x ^ (2.5 : ℝ) * A := by gcongr
      _ ≤ round32 (x ^ (2.5 : ℝ)) := hP
  obtain ⟨h13, h185, _⟩ := round32_constants
  have hapos : 0 < 18.5 * round32 (x ^ (2.5 : ℝ)) := by positivity
  have ha := (round32_near _ hapos).1
  have ha0 := round32_pos _ hapos
  have hqpos : 0 < round32 (18.5 * round32 (x ^ (2.5 : ℝ))) / (10905190 / 8388608) := by
    positivity
  have hm := (round32_near _ hqpos).1
  refine ⟨round32 (round32 (round32 18.5 * powf x 2.5) / round32 1.3), ?_, ?_⟩
  · rw [getIdealWeight32_eq]
  · rw [h13, h185]
    unfold powf
    have k1 : 18.5 * (4607 * A) * A ≤ round32 (18.5 * round32 (x ^ (2.5 : ℝ))) :=
      calc 18.5 * (4607 * A) * A ≤ 18.5 * round32 (x ^ (2.5 : ℝ)) * A := by gcongr
        _ ≤ round32 (18.5 * round32 (x ^ (2.5 : ℝ))) := ha
    have k2 : 18.5 * (4607 * A) * A / (10905190 / 8388608) * A ≤
        round32 (round32 (18.5 * round32 (x ^ (2.5 : ℝ))) / (10905190 / 8388608)) :=
      calc 18.5 * (4607 * A) * A / (10905190 / 8388608) * A
          ≤ round32 (18.5 * round32 (x ^ (2.5 : ℝ))) / (10905190 / 8388608) * A := by gcongr
        _ ≤ _ := hm
    have k3 : (65535 : ℝ) < 18.5 * (4607 * A) * A / (10905190 / 8388608) * A := by
      rw [hA]
      norm_num
    linarith

/-- An integer weight up to the maximum ideal weight has a binary32 BMI below 25. -/
theorem bmi32_below_25 (h w : ℕ) (hh : 0 < h) (hw : 0 < w)
    (hmax : le (fin (w : ℝ)) (getIdealWeight32 h).2 = true) :
    ∃ b : ℝ, getBMI32 h w = fin b ∧ b < 25 := by
  have hP := powf_height_pos h hh
  have hc : 0 < round32 1.3 := round32_pos _ (by norm_num)
  have hw0 : (0 : ℝ) < w := by exact_mod_cast hw
  rw [getIdealWeight32_eq] at hmax
  simp only [FloatVal.le, decide_eq_true_eq] at hmax
  have hmono := bmi32_mono _ _ _ hP hw0 hmax
  have htrip := (roundTrip32_near 24.9 _ _ (by norm_num) hP hc).2
  refine ⟨_, by rw [getBMI32, bmiFormula32_of_pos h _ hh], ?_⟩
  have : (24.9 : ℝ) * (1 + 2 ^ (-24 : ℤ)) ^ 5 < 25 := by norm_num
  linarith

/-- C18: for a positive height every integer weight of type `unsigned short`
between the minimum and the maximum of `getIdealWeight` has a BMI labelled
'Ideal weight (normal)', in binary32. -/
theorem idealWeight32_is_ideal (h w : ℕ) (hh : 0 < h) (hw : w ≤ 65535)
    (hmin : le (getIdealWeight32 h).1 (fin (w : ℝ)) = true)
    (hmax : le (fin (w : ℝ)) (getIdealWeight32 h).2 = true) :
    getSituation (getBMI32 h w) = "Ideal weight (normal)" := by
  have hw65 : (w : ℝ) ≤ 65535 := by exact_mod_cast hw
  rcases Nat.lt_or_ge h 2920 with hsmall | hlarge
  · obtain ⟨m, hm, hrow⟩ := rowCheck_sound h (checkUpTo_row 2919 h checkUpTo_2919 hh (by omega))
    rw [hm] at hmin
    simp only [FloatVal.le, decide_eq_true_eq] at hmin
    obtain ⟨b, hb, hlo⟩ := hrow w hmin
    have hmpos : 0 < m := by
      have := getIdealWeight32_eq h
      rw [this] at hm
      simp only [FloatVal.fin.injEq] at hm
      rw [← hm]
      have hP := powf_height_pos h hh
      have hc : 0 < round32 1.3 := round32_pos _ (by norm_num)
      have h185 : 0 < round32 18.5 := round32_pos _ (by norm_num)
      exact round32_pos _ (div_pos (round32_pos _ (by positivity)) hc)
    have hwpos : 0 < w := by
      have : (0 : ℝ) < w := lt_of_lt_of_le hmpos hmin
      exact_mod_cast this
    obtain ⟨b', hb', hhi⟩ := bmi32_below_25 h w hh hwpos hmax
    rw [hb] at hb'
    simp only [FloatVal.fin.injEq] at hb'
    rw [hb, getSituation_fin]
    norm_num at hlo
    rw [if_neg (by linarith), if_neg (by linarith), if_neg (by linarith),
      if_pos (by linarith)]
  · obtain ⟨m, hm, hbig⟩ := minWeight32_large h hlarge
    rw [hm] at hmin
    simp only [FloatVal.le, decide_eq_true_eq] at hmin
    linarith

/-- At height 1733 the binary32 minimum ideal weight is exactly 17792 and the
maximum is 23947.0703125, so the weight 17792 lies in the range. -/
theorem idealWeight32_1733_has_17792 :
    le (getIdealWeight32 1733).1 (fin ((17792 : ℕ) : ℝ)) = true ∧
    le (fin ((17792 : ℕ) : ℝ)) (getIdealWeight32 1733).2 = true := by
  have h := getIdealWeight32Eval_sound 1733 (9109504, 9) (12260900, 9) (by decide!)
  rw [h]
  simp only [FloatVal.le, decide_eq_true_eq]
  unfold scaled
  norm_num

/-- At height 1733 and weight 17792, the lower end of the range, the binary32 BMI
is exactly 18.5. -/
theorem getBMI32_1733_17792 : getBMI32 1733 17792 = fin 18.5 := by
  have h := getBMI32Eval_sound 1733 17792 (9699328, 19) (by decide!)
  rw [h]
  unfold scaled
  norm_num

/-- Witness of `idealWeight32_is_ideal` at height 1733 and weight 17792, the
lower end of the range. -/
theorem idealWeight32_is_ideal_witness :
    0 < 1733 ∧ 17792 ≤ 65535 ∧
    le (getIdealWeight32 1733).1 (fin ((17792 : ℕ) : ℝ)) = true ∧
    le (fin ((17792 : ℕ) : ℝ)) (getIdealWeight32 1733).2 = true ∧
    getSituation (getBMI32 1733 17792) = "Ideal weight (normal)" :=
  ⟨by decide, by decide, idealWeight32_1733_has_17792.1, idealWeight32_1733_has_17792.2,
    idealWeight32_is_ideal 1733 17792 (by decide) (by decide)
      idealWeight32_1733_has_17792.1 idealWeight32_1733_has_17792.2⟩

/-! ## A weight outside the range with the ideal label -/

/-- The power `pow(165 / 100, 2.5f)` lies between 3.497 and 3.4972. -/
theorem pow_height_165 :
    3.497 < (((165 : ℕ) : ℝ) / 100) ^ (2.5 : ℝ) ∧
    (((165 : ℕ) : ℝ) / 100) ^ (2.5 : ℝ) < 3.4972 := by
  have hpos := pow_height_pos 165 (by decide)
  have hsq := rpow_five_halves_sq (((165 : ℕ) : ℝ) / 100) (by positivity)
  have h5 : (((165 : ℕ) : ℝ) / 100) ^ 5 = 12.2298103125 := by norm_num
  rw [h5] at hsq
  constructor
  · by_contra hc
    rw [not_lt] at hc
    nlinarith
  · by_contra hc
    rw [not_lt] at hc
    nlinarith

/-- C19: the converse fails at height 165 and weight 67: the BMI is labelled
'Ideal weight (normal)' although 67 is strictly greater than the maximum of
`getIdealWeight 165`. -/
theorem ideal_label_outside_range :
    0 < 165 ∧
    getSituation (getBMI 165 67) = "Ideal weight (normal)" ∧
    lt (getIdealWeight 165).2 (fin ((67 : ℕ) : ℝ)) = true := by
  obtain ⟨hlo, hhi⟩ := pow_height_165
  have hpos := pow_height_pos 165 (by decide)
  refine ⟨by decide, ?_, ?_⟩
  · rw [getBMI, bmiFormula_of_pos 165 _ (by decide), getSituation_fin]
    have h1 : (37 / 2 : ℝ) ≤
        1.3 * ((67 : ℕ) : ℝ) / (((165 : ℕ) : ℝ) / 100) ^ (2.5 : ℝ) := by
      rw [le_div_iff₀ hpos]
      norm_num at hlo hhi ⊢
      linarith
    have h2 : 1.3 * ((67 : ℕ) : ℝ) / (((165 : ℕ) : ℝ) / 100) ^ (2.5 : ℝ) < 25 := by
      rw [div_lt_iff₀ hpos]
      norm_num at hlo hhi ⊢
      linarith
    rw [if_neg (by linarith), if_neg (by linarith), if_neg (by linarith), if_pos h2]
  · rw [getIdealWeight_eq]
    simp only [FloatVal.lt, decide_eq_true_eq]
    rw [div_lt_iff₀ (by norm_num)]
    norm_num at hlo hhi ⊢
    linarith

end BMI
